import Mathlib

/-!
# Verification of the PII anonymizer core

A shallow embedding, over `List Char` texts, of the span-substitution and
reversal engine of the PII_Anonymizer repository:

* `deanonymize`, `deanonymize_from_files`, `load_mapping` model
  `src/deanonymize.py` (the regex `\[[A-Z]+\d+\]` is modelled by the
  `tryTok` scanner over the ASCII classes `[A-Z]` and `[0-9]`, and Python
  `str.replace` by `replaceAll`; the `print` calls are modelled as a
  returned report list).
* `combineSpans` and `anonymize_data` model `Anonymizer.anonymize_data` of
  `src/anonymize.py` lines 96-137.  The spaCy NER entities and the regex
  detector outputs (`_find_custom_spans`, `_find_label_spans`) are external
  producers of spans and enter as parameters, exactly as the surrounding
  code consumes them.
* `resolve`, `allocate`, `applySpans`, `anonymize` model the mapping-
  producing core that `pii_processor.py`, `server.py` and
  `workflow_demo.py` import from the `anonymize` module but that is not
  present under `src/` (only its callers are); these are modelled from the
  spec, sections 4.1-4.3.
-/

namespace PII

/-- Text is a list of characters (Python `str`). -/
abbrev Text := List Char

/-- ASCII upper-case letter, the regex class `[A-Z]`. -/
def isUpperC (c : Char) : Bool := 65 ≤ c.toNat && c.toNat ≤ 90

/-- ASCII decimal digit, the regex class `\d` (modelled as ASCII `[0-9]`). -/
def isDigitC (c : Char) : Bool := 48 ≤ c.toNat && c.toNat ≤ 57

theorem isUpperC_not_digit {c : Char} (h : isUpperC c = true) : isDigitC c = false := by
  simp [isUpperC, isDigitC] at *
  omega

theorem isDigitC_not_upper {c : Char} (h : isDigitC c = true) : isUpperC c = false := by
  simp [isUpperC, isDigitC] at *
  omega

theorem isUpperC_ne_lbrack {c : Char} (h : isUpperC c = true) : c ≠ '[' := by
  intro he
  subst he
  simp [isUpperC] at h

theorem isDigitC_ne_lbrack {c : Char} (h : isDigitC c = true) : c ≠ '[' := by
  intro he
  subst he
  simp [isDigitC] at h

theorem isUpperC_ne_rbrack {c : Char} (h : isUpperC c = true) : c ≠ ']' := by
  intro he
  subst he
  simp [isUpperC] at h

theorem isDigitC_ne_rbrack {c : Char} (h : isDigitC c = true) : c ≠ ']' := by
  intro he
  subst he
  simp [isDigitC] at h

/-- `slice t a b` is the Python slice `t[a:b]` (for `a ≤ b`; both ends clamped). -/
def slice (t : Text) (a b : Nat) : Text := (t.drop a).take (b - a)

theorem slice_zero_length (t : Text) : slice t 0 t.length = t := by
  simp [slice]

theorem slice_append (t : Text) {a b c : Nat} (hab : a ≤ b) (hbc : b ≤ c) :
    slice t a b ++ slice t b c = slice t a c := by
  have h1 : c - a = (b - a) + (c - b) := by omega
  have h2 : a + (b - a) = b := by omega
  rw [slice, slice, slice, h1, List.take_add, List.drop_drop, h2]

theorem slice_within (t : Text) (a b : Nat) : slice t a b <:+: t := by
  have h1 : slice t a b <+: t.drop a := List.take_prefix _ _
  have h2 : t.drop a <:+ t := List.drop_suffix _ _
  exact h1.isInfix.trans h2.isInfix

/-- Digit character of `d` (used for `d < 10`). -/
def digitCh (d : Nat) : Char :=
  match d with
  | 0 => '0' | 1 => '1' | 2 => '2' | 3 => '3' | 4 => '4'
  | 5 => '5' | 6 => '6' | 7 => '7' | 8 => '8' | _ => '9'

theorem digitCh_isDigit (d : Nat) (h : d < 10) : isDigitC (digitCh d) = true := by
  interval_cases d <;> decide

theorem digitCh_toNat (d : Nat) (h : d < 10) : (digitCh d).toNat - 48 = d := by
  interval_cases d <;> decide

/-- Fuel-driven digit expansion; the fuel only bounds the recursion depth and
`natDigits` always supplies enough of it. -/
def natDigitsF : Nat → Nat → List Char
  | 0, n => [digitCh n]
  | f + 1, n => if n < 10 then [digitCh n] else natDigitsF f (n / 10) ++ [digitCh (n % 10)]

/-- Decimal digit string of a counter value, as Python `str(n)` produces for
the placeholder suffix. -/
def natDigits (n : Nat) : List Char := natDigitsF n n

theorem natDigitsF_congr : ∀ n f₁ f₂ : Nat, n ≤ f₁ → n ≤ f₂ →
    natDigitsF f₁ n = natDigitsF f₂ n := by
  intro n
  induction n using Nat.strong_induction_on with
  | _ n ih =>
    intro f₁ f₂ h₁ h₂
    by_cases h : n < 10
    · have e : ∀ f : Nat, natDigitsF f n = [digitCh n] := by
        intro f
        cases f with
        | zero => rfl
        | succ f => simp only [natDigitsF, if_pos h]
      rw [e, e]
    · obtain ⟨g₁, hg₁⟩ : ∃ g, f₁ = g + 1 := ⟨f₁ - 1, by omega⟩
      obtain ⟨g₂, hg₂⟩ : ∃ g, f₂ = g + 1 := ⟨f₂ - 1, by omega⟩
      subst hg₁ hg₂
      simp only [natDigitsF, if_neg h]
      have hlt : n / 10 < n := Nat.div_lt_self (by omega) (by omega)
      have ha : n / 10 ≤ g₁ := by omega
      have hb : n / 10 ≤ g₂ := by omega
      rw [ih (n / 10) hlt g₁ g₂ ha hb]

theorem natDigits_unfold (n : Nat) :
    natDigits n = if n < 10 then [digitCh n] else natDigits (n / 10) ++ [digitCh (n % 10)] := by
  by_cases h : n < 10
  · rw [if_pos h]
    simp only [natDigits]
    cases n with
    | zero => rfl
    | succ m => simp only [natDigitsF, if_pos h]
  · rw [if_neg h]
    simp only [natDigits]
    obtain ⟨m, hm⟩ : ∃ m, n = m + 1 := ⟨n - 1, by omega⟩
    subst hm
    simp only [natDigitsF, if_neg h]
    have hlt : (m + 1) / 10 < m + 1 := Nat.div_lt_self (by omega) (by omega)
    have ha : (m + 1) / 10 ≤ m := by omega
    rw [natDigitsF_congr ((m + 1) / 10) m ((m + 1) / 10) ha (le_refl _)]

theorem natDigits_ne_nil (n : Nat) : natDigits n ≠ [] := by
  rw [natDigits_unfold]
  split <;> simp

theorem natDigits_all_digit (n : Nat) : ∀ c ∈ natDigits n, isDigitC c = true := by
  induction n using Nat.strong_induction_on with
  | _ n ih =>
    rw [natDigits_unfold]
    split
    · next h =>
      intro c hc
      simp at hc
      subst hc
      exact digitCh_isDigit n h
    · next h =>
      intro c hc
      simp at hc
      rcases hc with hc | hc
      · exact ih (n / 10) (Nat.div_lt_self (by omega) (by omega)) c hc
      · subst hc
        exact digitCh_isDigit _ (Nat.mod_lt _ (by omega))

/-- Numeric value of a digit string (inverse of `natDigits`). -/
def digitsVal (l : List Char) : Nat := l.foldl (fun a c => 10 * a + (c.toNat - 48)) 0

theorem digitsVal_append_last (l : List Char) (c : Char) :
    digitsVal (l ++ [c]) = 10 * digitsVal l + (c.toNat - 48) := by
  simp [digitsVal, List.foldl_append]

theorem digitsVal_natDigits (n : Nat) : digitsVal (natDigits n) = n := by
  induction n using Nat.strong_induction_on with
  | _ n ih =>
    rw [natDigits_unfold]
    split
    · next h =>
      simp [digitsVal]
      exact digitCh_toNat n h
    · next h =>
      rw [digitsVal_append_last, ih (n / 10) (Nat.div_lt_self (by omega) (by omega)),
        digitCh_toNat _ (Nat.mod_lt _ (by omega))]
      omega

theorem natDigits_injective {a b : Nat} (h : natDigits a = natDigits b) : a = b := by
  have := digitsVal_natDigits a
  rw [h, digitsVal_natDigits] at this
  omega

/-!
## Placeholder tokens

`IsTok t` states that `t` is exactly a full match of the placeholder pattern
`r'\[[A-Z]+\d+\]'` of `deanonymize` (src/deanonymize.py line 20).
-/

/-- `t` matches the placeholder regex `\[[A-Z]+\d+\]` exactly. -/
def IsTok (t : Text) : Prop :=
  ∃ α β : List Char, t = '[' :: (α ++ β ++ [']']) ∧ α ≠ [] ∧ β ≠ [] ∧
    (∀ c ∈ α, isUpperC c = true) ∧ (∀ c ∈ β, isDigitC c = true)

theorem IsTok.ne_nil {t : Text} (h : IsTok t) : t ≠ [] := by
  obtain ⟨α, β, ht, -, -, -, -⟩ := h
  simp [ht]

theorem IsTok.head_lbrack {t : Text} (h : IsTok t) : ∃ r, t = '[' :: r := by
  obtain ⟨α, β, ht, -, -, -, -⟩ := h
  exact ⟨_, ht⟩

/-- No character after the opening bracket of a token is `'['`. -/
theorem IsTok.tail_no_lbrack {t : Text} (h : IsTok t) : ∀ c ∈ t.drop 1, c ≠ '[' := by
  obtain ⟨α, β, ht, -, -, hα, hβ⟩ := h
  subst ht
  intro c hc
  simp at hc
  rcases hc with hc | hc | hc
  · exact isUpperC_ne_lbrack (hα c hc)
  · exact isDigitC_ne_lbrack (hβ c hc)
  · subst hc; decide

/-- Unique parsing of `letters ++ digits ++ ']' :: rest` sequences: the split
into the letter block and the digit block is determined by the characters. -/
theorem classSeq_eq :
    ∀ (α₁ : List Char) {β₁ t₁ : List Char} (α₂ : List Char) {β₂ t₂ : List Char},
    (∀ c ∈ α₁, isUpperC c = true) → (∀ c ∈ β₁, isDigitC c = true) →
    (∀ c ∈ α₂, isUpperC c = true) → (∀ c ∈ β₂, isDigitC c = true) →
    β₁ ≠ [] → β₂ ≠ [] →
    α₁ ++ β₁ ++ ']' :: t₁ = α₂ ++ β₂ ++ ']' :: t₂ →
    α₁ = α₂ ∧ β₁ = β₂ ∧ t₁ = t₂ := by
  intro α₁
  induction α₁ with
  | nil =>
    intro β₁ t₁ α₂ β₂ t₂ hα₁ hβ₁ hα₂ hβ₂ hne₁ hne₂ heq
    cases α₂ with
    | cons a α₂t =>
      exfalso
      cases β₁ with
      | nil => exact hne₁ rfl
      | cons b β₁t =>
        simp at heq
        have hb := hβ₁ b (by simp)
        rw [heq.1] at hb
        have := isUpperC_not_digit (hα₂ a (by simp))
        rw [hb] at this
        cases this
    | nil =>
      simp only [List.nil_append] at heq
      refine ⟨rfl, ?_⟩
      clear hα₁ hα₂
      induction β₁ generalizing β₂ with
      | nil => exact absurd rfl hne₁
      | cons b β₁t ih =>
        cases β₂ with
        | nil => exact absurd rfl hne₂
        | cons b₂ β₂t =>
          simp at heq
          obtain ⟨hb, heq⟩ := heq
          subst hb
          by_cases hn₁ : β₁t = []
          · subst hn₁
            cases β₂t with
            | nil =>
              simp at heq
              exact ⟨rfl, heq⟩
            | cons c ct =>
              exfalso
              simp at heq
              have := isDigitC_ne_rbrack (hβ₂ c (by simp))
              exact this heq.1.symm
          · by_cases hn₂ : β₂t = []
            · subst hn₂
              exfalso
              cases β₁t with
              | nil => exact hn₁ rfl
              | cons c ct =>
                simp at heq
                have := isDigitC_ne_rbrack (hβ₁ c (by simp))
                exact this heq.1
            · have := ih (fun c hc => hβ₁ c (by simp [hc]))
                (fun c hc => hβ₂ c (by simp [hc])) hn₁ hn₂ heq
              exact ⟨by rw [this.1], this.2⟩
  | cons a α₁t ih =>
    intro β₁ t₁ α₂ β₂ t₂ hα₁ hβ₁ hα₂ hβ₂ hne₁ hne₂ heq
    cases α₂ with
    | nil =>
      exfalso
      cases β₂ with
      | nil => exact hne₂ rfl
      | cons b β₂t =>
        simp at heq
        have hb := hβ₂ b (by simp)
        rw [← heq.1] at hb
        have := isUpperC_not_digit (hα₁ a (by simp))
        rw [hb] at this
        cases this
    | cons a₂ α₂t =>
      simp at heq
      obtain ⟨ha, heq⟩ := heq
      subst ha
      have heq' : α₁t ++ β₁ ++ ']' :: t₁ = α₂t ++ β₂ ++ ']' :: t₂ := by
        simpa using heq
      have := ih α₂t (fun c hc => hα₁ c (by simp [hc])) hβ₁
        (fun c hc => hα₂ c (by simp [hc])) hβ₂ hne₁ hne₂ heq'
      exact ⟨by rw [this.1], this.2.1, this.2.2⟩

/-- Two tokens that are equal as initial segments of the same text are equal:
if token `q` is a prefix of `p ++ t` and `p` is a token, then `q = p`. -/
theorem tok_prefix_tok {q p t : Text} (hq : IsTok q) (hp : IsTok p)
    (h : q <+: p ++ t) : q = p := by
  obtain ⟨αq, βq, hqe, hqa, hqb, hqα, hqβ⟩ := hq
  obtain ⟨αp, βp, hpe, hpa, hpb, hpα, hpβ⟩ := hp
  obtain ⟨w, hw⟩ := h
  subst hqe hpe
  simp only [List.cons_append, List.append_assoc, List.cons.injEq] at hw
  obtain ⟨-, hw⟩ := hw
  have hw' : αq ++ βq ++ ']' :: w = αp ++ βp ++ ']' :: t := by
    simpa using hw
  obtain ⟨h1, h2, -⟩ := classSeq_eq αq αp hqα hqβ hpα hpβ hqb hpb hw'
  simp [h1, h2]

/-!
## The scanner: `re.findall(r'\[[A-Z]+\d+\]', text)`

For this pattern, a Python regex match at a position is exactly: `'['`, a
maximal nonempty run of `[A-Z]`, a maximal nonempty run of `\d`, then `']'`
(no backtracking of the greedy runs can succeed, since a shorter letter run
puts a letter where `\d` must match and a shorter digit run puts a digit
where `']'` must match).  `findall` returns the leftmost non-overlapping
matches, scanning left to right.
-/

/-- Try to match the placeholder pattern at the start of `s`; on success
return the matched token and the remaining text. -/
def tryTok (s : Text) : Option (Text × Text) :=
  match s with
  | [] => none
  | c :: r =>
    if c = '[' then
      let α := r.takeWhile isUpperC
      let r1 := r.dropWhile isUpperC
      let β := r1.takeWhile isDigitC
      let r2 := r1.dropWhile isDigitC
      if hα : α = [] then none
      else if hβ : β = [] then none
      else
        match r2 with
        | ']' :: rest => some ('[' :: (α ++ β ++ [']']), rest)
        | _ => none
    else none

theorem tryTok_sound {s tok rest : Text} (h : tryTok s = some (tok, rest)) :
    IsTok tok ∧ s = tok ++ rest ∧ rest.length + 4 ≤ s.length := by
  match s with
  | [] => simp [tryTok] at h
  | c :: r =>
    simp only [tryTok] at h
    split at h
    · next hc =>
      subst hc
      split at h
      · simp at h
      · split at h
        · simp at h
        · next hα hβ =>
          split at h
          · next r2 rest' hr2 =>
            simp only [Option.some.injEq, Prod.mk.injEq] at h
            obtain ⟨htok, hrest⟩ := h
            subst htok hrest
            have hdecomp : r.takeWhile isUpperC ++ r.dropWhile isUpperC = r :=
              List.takeWhile_append_dropWhile ..
            have hdecomp2 : (r.dropWhile isUpperC).takeWhile isDigitC ++
                (r.dropWhile isUpperC).dropWhile isDigitC = r.dropWhile isUpperC :=
              List.takeWhile_append_dropWhile ..
            constructor
            · exact ⟨_, _, rfl, hα, hβ, fun c hc => List.mem_takeWhile_imp hc,
                fun c hc => List.mem_takeWhile_imp hc⟩
            · constructor
              · simp only [List.cons_append, List.cons.injEq, true_and]
                rw [List.append_assoc, List.append_assoc, List.singleton_append, ← hr2,
                  hdecomp2, hdecomp]
              · have h1 : (r.takeWhile isUpperC).length ≥ 1 := by
                  cases hx : r.takeWhile isUpperC with
                  | nil => exact absurd hx hα
                  | cons _ _ => simp [hx]
                have h2 : ((r.dropWhile isUpperC).takeWhile isDigitC).length ≥ 1 := by
                  cases hx : (r.dropWhile isUpperC).takeWhile isDigitC with
                  | nil => exact absurd hx hβ
                  | cons _ _ => simp [hx]
                have h3 := congrArg List.length hdecomp
                have h4 := congrArg List.length hdecomp2
                simp only [List.length_append] at h3 h4
                have h5 : ((r.dropWhile isUpperC).dropWhile isDigitC).length =
                    rest'.length + 1 := by
                  rw [hr2]
                  simp
                simp only [List.length_cons]
                omega
          · simp at h
    · simp at h

/-- A helper to destructure lists at the start of a `takeWhile` run. -/
theorem takeWhile_append_block {p : Char → Bool} :
    ∀ (l r : List Char), (∀ c ∈ l, p c = true) →
    (∀ hr : r ≠ [], p (r.head hr) = false) →
    (l ++ r).takeWhile p = l ∧ (l ++ r).dropWhile p = r := by
  intro l
  induction l with
  | nil =>
    intro r _ hr
    cases r with
    | nil => simp
    | cons c t =>
      have := hr (by simp)
      simp at this
      simp [List.takeWhile, List.dropWhile, this]
  | cons a l ih =>
    intro r hl hr
    have ha : p a = true := hl a (by simp)
    have := ih r (fun c hc => hl c (by simp [hc])) hr
    simp [List.takeWhile, List.dropWhile, ha, this.1, this.2]

/-- The scanner is complete: at the start of a token it matches exactly
that token. -/
theorem tryTok_complete {p : Text} (hp : IsTok p) (t : Text) :
    tryTok (p ++ t) = some (p, t) := by
  obtain ⟨α, β, hpe, hα, hβ, hαc, hβc⟩ := hp
  subst hpe
  obtain ⟨b, βt, hβe⟩ : ∃ b βt, β = b :: βt := by
    cases β with
    | nil => exact absurd rfl hβ
    | cons b βt => exact ⟨b, βt, rfl⟩
  have harr : ('[' :: (α ++ β ++ [']'])) ++ t = '[' :: (α ++ (β ++ ']' :: t)) := by
    simp
  rw [harr]
  have hblock1 := takeWhile_append_block (p := isUpperC) α (β ++ ']' :: t) hαc
    (by
      intro hr
      subst hβe
      simp
      exact isDigitC_not_upper (hβc b (by simp)))
  have hblock2 := takeWhile_append_block (p := isDigitC) β (']' :: t) hβc
    (by intro hr; simp; decide)
  simp only [tryTok, hblock1.1, hblock1.2, hblock2.1, hblock2.2]
  simp [hα, hβ]

/-- Fuel-driven scanner loop; the fuel only bounds the recursion depth and
`findTokens` always supplies enough of it. -/
def findTokensF : Nat → Text → List Text
  | _, [] => []
  | 0, _ :: _ => []
  | f + 1, c :: r =>
    match tryTok (c :: r) with
    | some (tok, rest) => tok :: findTokensF f rest
    | none => findTokensF f r

/-- All placeholders found in `text`, in order: `re.findall` for the
placeholder pattern (src/deanonymize.py line 21). -/
def findTokens (s : Text) : List Text := findTokensF s.length s

theorem findTokensF_congr : ∀ (n : Nat) (s : Text), s.length ≤ n →
    ∀ f₁ f₂ : Nat, s.length ≤ f₁ → s.length ≤ f₂ →
    findTokensF f₁ s = findTokensF f₂ s := by
  intro n
  induction n with
  | zero =>
    intro s hs f₁ f₂ _ _
    have he : s = [] := List.length_eq_zero.mp (by omega)
    subst he
    cases f₁ <;> cases f₂ <;> rfl
  | succ n ih =>
    intro s hs f₁ f₂ h₁ h₂
    cases s with
    | nil => cases f₁ <;> cases f₂ <;> rfl
    | cons c r =>
      have hl : (c :: r).length = r.length + 1 := by simp
      obtain ⟨g₁, hg₁⟩ : ∃ g, f₁ = g + 1 := ⟨f₁ - 1, by omega⟩
      obtain ⟨g₂, hg₂⟩ : ∃ g, f₂ = g + 1 := ⟨f₂ - 1, by omega⟩
      subst hg₁ hg₂
      simp only [findTokensF]
      cases htt : tryTok (c :: r) with
      | none =>
        exact ih r (by simp at hs; omega) g₁ g₂ (by omega) (by omega)
      | some pair =>
        obtain ⟨tok, rest⟩ := pair
        have hlen := (tryTok_sound htt).2.2
        simp only [List.length_cons] at hlen hs h₁ h₂
        show tok :: findTokensF g₁ rest = tok :: findTokensF g₂ rest
        rw [ih rest (by omega) g₁ g₂ (by omega) (by omega)]

theorem findTokens_nil : findTokens [] = [] := rfl

theorem findTokens_cons (c : Char) (r : Text) :
    findTokens (c :: r) =
      match tryTok (c :: r) with
      | some (tok, rest) => tok :: findTokens rest
      | none => findTokens r := by
  show findTokensF (r.length + 1) (c :: r) = _
  simp only [findTokensF]
  cases htt : tryTok (c :: r) with
  | none => rfl
  | some pair =>
    obtain ⟨tok, rest⟩ := pair
    have hlen := (tryTok_sound htt).2.2
    simp only [List.length_cons] at hlen
    show tok :: findTokensF r.length rest = tok :: findTokens rest
    rw [findTokensF_congr rest.length rest (le_refl _) r.length rest.length (by omega) (le_refl _)]
    rfl

/-- Fuel-driven replacement loop; the fuel only bounds the recursion depth
and `replaceAll` always supplies enough of it. -/
def replaceAllF (pat rep : Text) : Nat → Text → Text
  | _, [] => []
  | 0, s => s
  | f + 1, c :: r =>
    if pat ≠ [] ∧ pat <+: (c :: r) then
      rep ++ replaceAllF pat rep f ((c :: r).drop pat.length)
    else
      c :: replaceAllF pat rep f r

/-- Python `str.replace(pat, rep)`: replace every non-overlapping occurrence
of `pat`, scanning left to right, never rescanning `rep` (src/deanonymize.py
line 28; the `pat = []` case never arises from `findall` tokens). -/
def replaceAll (pat rep : Text) (s : Text) : Text := replaceAllF pat rep s.length s

theorem replaceAllF_congr (pat rep : Text) : ∀ (n : Nat) (s : Text), s.length ≤ n →
    ∀ f₁ f₂ : Nat, s.length ≤ f₁ → s.length ≤ f₂ →
    replaceAllF pat rep f₁ s = replaceAllF pat rep f₂ s := by
  intro n
  induction n with
  | zero =>
    intro s hs f₁ f₂ _ _
    have he : s = [] := List.length_eq_zero.mp (by omega)
    subst he
    cases f₁ <;> cases f₂ <;> rfl
  | succ n ih =>
    intro s hs f₁ f₂ h₁ h₂
    cases s with
    | nil => cases f₁ <;> cases f₂ <;> rfl
    | cons c r =>
      obtain ⟨g₁, hg₁⟩ : ∃ g, f₁ = g + 1 := ⟨f₁ - 1, by simp at h₁; omega⟩
      obtain ⟨g₂, hg₂⟩ : ∃ g, f₂ = g + 1 := ⟨f₂ - 1, by simp at h₂; omega⟩
      subst hg₁ hg₂
      simp only [replaceAllF]
      simp only [List.length_cons] at hs h₁ h₂
      by_cases hcond : pat ≠ [] ∧ pat <+: (c :: r)
      · rw [if_pos hcond, if_pos hcond]
        have hpl : 1 ≤ pat.length := by
          cases hp : pat with
          | nil => exact absurd hp hcond.1
          | cons _ _ => simp [hp]
        have hdl : ((c :: r).drop pat.length).length = r.length + 1 - pat.length := by
          simp
        rw [ih ((c :: r).drop pat.length) (by omega) g₁ g₂ (by omega) (by omega)]
      · rw [if_neg hcond, if_neg hcond]
        rw [ih r (by omega) g₁ g₂ (by omega) (by omega)]

theorem replaceAll_nil (pat rep : Text) : replaceAll pat rep [] = [] := rfl

theorem replaceAll_cons_pos {pat : Text} (rep : Text) {c : Char} {r : Text}
    (hne : pat ≠ []) (hpre : pat <+: (c :: r)) :
    replaceAll pat rep (c :: r) = rep ++ replaceAll pat rep ((c :: r).drop pat.length) := by
  show replaceAllF pat rep (r.length + 1) (c :: r) = _
  simp only [replaceAllF, if_pos (And.intro hne hpre)]
  have hpl : 1 ≤ pat.length := by
    cases hp : pat with
    | nil => exact absurd hp hne
    | cons _ _ => simp [hp]
  have hdl : ((c :: r).drop pat.length).length = r.length + 1 - pat.length := by simp
  rw [replaceAllF_congr pat rep ((c :: r).drop pat.length).length _ (le_refl _)
    r.length _ (by omega) (le_refl _)]
  rfl

theorem replaceAll_cons_neg {pat : Text} (rep : Text) {c : Char} {r : Text}
    (h : ¬(pat ≠ [] ∧ pat <+: (c :: r))) :
    replaceAll pat rep (c :: r) = c :: replaceAll pat rep r := by
  show replaceAllF pat rep (r.length + 1) (c :: r) = _
  simp only [replaceAllF, if_neg h]
  rw [replaceAllF_congr pat rep r.length r (le_refl _) r.length r.length (le_refl _) (le_refl _)]
  rfl


/-!
## The reversal engine: `deanonymize` (src/deanonymize.py)
-/

/-- The reverse lookup of `deanonymize` line 17: Python builds
`reverse_mapping = {placeholder: original for original, placeholder in mapping.items()}`,
where a later entry with the same placeholder value overwrites an earlier
one, so the lookup takes the last matching entry. -/
def revLookup (m : List (Text × Text)) (p : Text) : Option Text :=
  (m.reverse.find? (fun e => decide (e.2 = p))).map (fun e => e.1)

/-- `deanonymize(anonymized_text, mapping)` of src/deanonymize.py lines 5-32:
find all placeholder tokens, then replace each one that has a reverse-mapping
entry via `str.replace` on the accumulated result.  The function returns the
rewritten text together with the list of unresolved placeholders, which the
source reports as `print` warnings (line 30). -/
def deanonymize (anonymized_text : Text) (mapping : List (Text × Text)) : Text × List Text :=
  (findTokens anonymized_text).foldl
    (fun acc placeholder =>
      match revLookup mapping placeholder with
      | some original => (replaceAll placeholder original acc.1, acc.2)
      | none => (acc.1, acc.2 ++ [placeholder]))
    (anonymized_text, [])

/-!
## Mapping persistence: `load_mapping` and `deanonymize_from_files`

The persisted JSON mapping file is modelled by its three observable states:
absent (raising `FileNotFoundError` on open), present but unparsable
(raising `json.JSONDecodeError`), or a parsed string-to-string table.
-/

/-- State of the persisted mapping storage. -/
inductive Storage where
  | missing : Storage
  | corrupt : Storage
  | good : List (Text × Text) → Storage
deriving DecidableEq

/-- The two exceptions a mapping load can raise. -/
inductive LoadError where
  | fileNotFound : LoadError
  | jsonDecode : LoadError
deriving DecidableEq

/-- `load_mapping(filename)` of src/deanonymize.py lines 68-79: no handler,
so a missing file propagates `FileNotFoundError` and a corrupt file
propagates `json.JSONDecodeError` to the caller. -/
def load_mapping : Storage → Except LoadError (List (Text × Text))
  | .missing => .error .fileNotFound
  | .corrupt => .error .jsonDecode
  | .good m => .ok m

/-- `deanonymize_from_files(anonymized_text, mapping_file)` of
src/deanonymize.py lines 34-54: catches both `FileNotFoundError` and
`json.JSONDecodeError`, prints an error message, and returns the input text
unchanged; on success it returns `deanonymize(anonymized_text, mapping)`. -/
def deanonymize_from_files (anonymized_text : Text) (st : Storage) : Text :=
  match load_mapping st with
  | .error _ => anonymized_text
  | .ok m => (deanonymize anonymized_text m).1

theorem revLookup_nil (p : Text) : revLookup [] p = none := rfl

theorem deanonymize_foldl_nil_mapping (toks : List Text) :
    ∀ acc : Text × List Text,
    (toks.foldl
      (fun acc placeholder =>
        match revLookup [] placeholder with
        | some original => (replaceAll placeholder original acc.1, acc.2)
        | none => (acc.1, acc.2 ++ [placeholder]))
      acc).1 = acc.1 := by
  induction toks with
  | nil => intro acc; rfl
  | cons tok toks ih =>
    intro acc
    rw [List.foldl_cons, revLookup_nil]
    exact ih (acc.1, acc.2 ++ [tok])

/-- **C10.**  Empty-mapping identity: for every input text `t`,
`deanonymize(t, {})` returns `t` character-for-character unchanged, since the
reverse mapping is empty and no placeholder is replaced. -/
theorem claim_C10_empty_mapping_identity (t : Text) : (deanonymize t []).1 = t :=
  deanonymize_foldl_nil_mapping (findTokens t) (t, [])

/-- **C7.**  Unresolved token safety: `deanonymize("Hello [PERSON1]", {})`
returns the text unchanged, raises no exception, and reports exactly one
unresolved token, `[PERSON1]`. -/
theorem claim_C7_unresolved_token_safety :
    deanonymize "Hello [PERSON1]".toList [] =
      ("Hello [PERSON1]".toList, ["[PERSON1]".toList]) := by
  decide

/-- **C6.**  Boundary disambiguation: with the mapping
`{"X": "[PERSON1]", "Y": "[PERSON10]"}`, `deanonymize` on
`"[PERSON1] and [PERSON10]"` yields `"X and Y"` with nothing unresolved, and
`[PERSON1]` is not a substring of `[PERSON10]`, so replacing the former can
never corrupt an occurrence of the latter. -/
theorem claim_C6_boundary_disambiguation :
    deanonymize "[PERSON1] and [PERSON10]".toList
      [("X".toList, "[PERSON1]".toList), ("Y".toList, "[PERSON10]".toList)] =
      ("X and Y".toList, []) ∧
    ¬ ("[PERSON1]".toList <:+: "[PERSON10]".toList) := by
  constructor
  · decide
  · decide

/-- **C8 counterexample.**  The claim says a corrupt or missing persisted
mapping is surfaced to the caller of the load path as an explicit failure
distinct from the no-mapping case.  But `deanonymize_from_files` catches
both exceptions (src/deanonymize.py lines 49-54) and returns the input text
unchanged: its result on a missing and on a corrupt mapping file is
indistinguishable from silently proceeding with an empty mapping. -/
theorem claim_C8_counterexample :
    deanonymize_from_files "Hello [PERSON1]".toList Storage.missing =
      "Hello [PERSON1]".toList ∧
    deanonymize_from_files "Hello [PERSON1]".toList Storage.corrupt =
      "Hello [PERSON1]".toList ∧
    deanonymize_from_files "Hello [PERSON1]".toList Storage.corrupt =
      deanonymize_from_files "Hello [PERSON1]".toList (Storage.good []) := by
  refine ⟨rfl, rfl, ?_⟩
  decide

/-- **C8 (amended).**  `load_mapping` itself does surface missing and corrupt
storage as two distinct explicit failures, but `deanonymize_from_files`
catches both and returns the anonymized text unchanged (reporting only via a
printed message), so callers of that path receive no explicit failure. -/
theorem claim_C8_load_failures :
    load_mapping Storage.missing = Except.error LoadError.fileNotFound ∧
    load_mapping Storage.corrupt = Except.error LoadError.jsonDecode ∧
    LoadError.fileNotFound ≠ LoadError.jsonDecode ∧
    (∀ m, load_mapping (Storage.good m) = Except.ok m) ∧
    (∀ t : Text, deanonymize_from_files t Storage.missing = t ∧
      deanonymize_from_files t Storage.corrupt = t) := by
  refine ⟨rfl, rfl, by decide, fun m => rfl, fun t => ⟨rfl, rfl⟩⟩

/-!
## The source anonymizer: `Anonymizer.anonymize_data` (src/anonymize.py)
-/

/-- A detector span: half-open character range with a label. -/
structure Span where
  start : Nat
  stop : Nat
  label : Text
deriving DecidableEq

/-- `Anonymizer._spans_overlap` (src/anonymize.py lines 38-39):
`a_start < b_end and b_start < a_end`. -/
def spans_overlap (aStart aEnd bStart bEnd : Nat) : Bool :=
  decide (aStart < bEnd) && decide (bStart < aEnd)

/-- Overlap of two spans under `_spans_overlap`. -/
def overlapB (a b : Span) : Bool := spans_overlap a.start a.stop b.start b.stop

theorem overlapB_symm (a b : Span) : overlapB a b = overlapB b a := by
  simp only [overlapB, spans_overlap]
  rw [Bool.and_comm]

theorem overlapB_eq_false_iff (a b : Span) :
    overlapB a b = false ↔ b.stop ≤ a.start ∨ a.stop ≤ b.start := by
  simp [overlapB, spans_overlap]
  omega

/-- `self.label_mapping.get(label, label)` (src/anonymize.py lines 12-27,
line 130): the only entries that change their key are CARDINAL, FAC, GPE and
ORG; every other entry maps to itself, and an absent key defaults to itself. -/
def label_mapping_get (l : Text) : Text :=
  if l = "CARDINAL".toList then "NUMBER".toList
  else if l = "FAC".toList then "ADDRESS".toList
  else if l = "GPE".toList then "LOCATION".toList
  else if l = "ORG".toList then "ORGANIZATION".toList
  else l

/-- The placeholder `f"[{base_label}{count}]"` (src/anonymize.py line 134). -/
def mkPlaceholder (l : Text) (k : Nat) : Text := '[' :: (l ++ natDigits k ++ [']'])

/-- Lookup in an association list with unique keys: Python `dict` access. -/
def lookupA {β : Type} (k : Text) (m : List (Text × β)) : Option β :=
  (m.find? (fun e => decide (e.1 = k))).map (fun e => e.2)

/-- Update in an association list: Python `dict` assignment. -/
def setA {β : Type} (k : Text) (v : β) : List (Text × β) → List (Text × β)
  | [] => [(k, v)]
  | e :: rest => if e.1 = k then (k, v) :: rest else e :: setA k v rest

theorem lookupA_setA_same {β : Type} (k : Text) (v : β) :
    ∀ m : List (Text × β), lookupA k (setA k v m) = some v := by
  intro m
  induction m with
  | nil => simp [setA, lookupA, List.find?]
  | cons e rest ih =>
    by_cases he : e.1 = k
    · simp [setA, he, lookupA, List.find?]
    · simp only [setA, if_neg he]
      simp only [lookupA, List.find?] at ih ⊢
      simp [he, ih]

theorem lookupA_setA_other {β : Type} {k k2 : Text} (hne : k2 ≠ k) (v : β) :
    ∀ m : List (Text × β), lookupA k2 (setA k v m) = lookupA k2 m := by
  intro m
  induction m with
  | nil =>
    simp only [setA, lookupA, List.find?]
    have h1 : (decide (k = k2)) = false := decide_eq_false (fun h => hne h.symm)
    simp [h1]
  | cons e rest ih =>
    by_cases he : e.1 = k
    · subst he
      simp only [setA, if_pos rfl]
      simp only [lookupA, List.find?]
      have h1 : (decide (e.1 = k2)) = false := by
        simp
        intro h
        exact hne h.symm
      simp [h1]
    · simp only [setA, if_neg he]
      simp only [lookupA, List.find?] at ih ⊢
      by_cases h2 : e.1 = k2
      · simp [h2]
      · simp only [decide_eq_false h2]
        exact ih

/-- Stable insertion into a start-sorted list: an element is placed before
the first element whose start is not smaller, so elements inserted earlier
from the original order stay first among equal keys. -/
def insertByStart (a : Span) : List Span → List Span
  | [] => [a]
  | b :: l => if a.start ≤ b.start then a :: b :: l else b :: insertByStart a l

/-- Stable sort by `start` ascending: the model of Python's stable
`all_spans.sort(key=lambda x: x[0])` (src/anonymize.py line 127). -/
def sortByStart : List Span → List Span
  | [] => []
  | a :: l => insertByStart a (sortByStart l)

theorem insertByStart_perm (a : Span) :
    ∀ l : List Span, List.Perm (insertByStart a l) (a :: l) := by
  intro l
  induction l with
  | nil => rfl
  | cons b t ih =>
    simp only [insertByStart]
    split
    · rfl
    · exact List.Perm.trans (ih.cons b) (List.Perm.swap a b t)

theorem sortByStart_perm : ∀ l : List Span, List.Perm (sortByStart l) l := by
  intro l
  induction l with
  | nil => rfl
  | cons a t ih =>
    exact List.Perm.trans (insertByStart_perm a (sortByStart t)) (ih.cons a)

theorem insertByStart_sorted (a : Span) :
    ∀ l : List Span, List.Pairwise (fun x y : Span => x.start ≤ y.start) l →
    List.Pairwise (fun x y : Span => x.start ≤ y.start) (insertByStart a l) := by
  intro l
  induction l with
  | nil => intro _; simp [insertByStart]
  | cons b t ih =>
    intro h
    rw [List.pairwise_cons] at h
    simp only [insertByStart]
    split
    · next hab =>
      rw [List.pairwise_cons]
      constructor
      · intro x hx
        simp at hx
        rcases hx with hx | hx
        · subst hx; exact hab
        · exact le_trans hab (h.1 x hx)
      · rw [List.pairwise_cons]
        exact h
    · next hab =>
      rw [List.pairwise_cons]
      constructor
      · intro x hx
        have hx3 := (insertByStart_perm a t).mem_iff.mp hx
        simp at hx3
        rcases hx3 with hx2 | hx2
        · subst hx2; omega
        · exact h.1 x hx2
      · exact ih h.2

theorem sortByStart_sorted : ∀ l : List Span,
    List.Pairwise (fun x y : Span => x.start ≤ y.start) (sortByStart l) := by
  intro l
  induction l with
  | nil => simp [sortByStart]
  | cons a t ih => exact insertByStart_sorted a (sortByStart t) ih

/-- Span combination of `anonymize_data` (src/anonymize.py lines 103-127):
keep each NER span only if it overlaps no custom span and no protected label
span, append the kept NER spans after the custom spans, and sort the result
by `start` (stable). -/
def combineSpans (custom : List Span) (labelSpans : List (Nat × Nat))
    (ents : List Span) : List Span :=
  let entSpans := ents.filter (fun e =>
    !(custom.any (fun cs => spans_overlap e.start e.stop cs.start cs.stop)) &&
    !(labelSpans.any (fun ls => spans_overlap e.start e.stop ls.1 ls.2)))
  sortByStart (custom ++ entSpans)

/-- The substitution loop of `anonymize_data` (src/anonymize.py lines
129-135): iterate the combined spans in reverse, bump the per-label counter,
and splice `[label + count]` over the span, keeping earlier (left) indices
valid.  The state is `(anonymized_doc, entity_counters)`. -/
def substLoop (file : Text) (spans : List Span) : Text × List (Text × Nat) :=
  spans.reverse.foldl
    (fun acc s =>
      let base_label := label_mapping_get s.label
      let k := (lookupA base_label acc.2).getD 0 + 1
      (acc.1.take s.start ++ mkPlaceholder base_label k ++ acc.1.drop s.stop,
        setA base_label k acc.2))
    (file, [])

/-- `Anonymizer.anonymize_data` (src/anonymize.py lines 96-137),
parameterized by the detector outputs it consumes: the regex custom spans
and label spans (`_find_custom_spans`, `_find_label_spans`) and the spaCy
entities (`self.doc.ents`).  `st0` is the instance's `entity_counters` state
before the call; line 101 resets it, so the result never depends on it.
Returns the anonymized document together with the instance's counter state
after the call. -/
def anonymize_data (st0 : List (Text × Nat)) (file : Text) (custom : List Span)
    (labelSpans : List (Nat × Nat)) (ents : List Span) : Text × List (Text × Nat) :=
  substLoop file (combineSpans custom labelSpans ents)

/-- Disjointness of the combined span list, provided the custom spans are
pairwise non-overlapping, the NER spans are pairwise non-overlapping, and
all spans are non-degenerate.  (The code itself enforces only the
custom-versus-NER disjointness; the rest must come from the detectors.) -/
theorem combineSpans_disjoint_sorted
    (custom : List Span) (ls : List (Nat × Nat)) (ents : List Span)
    (hc : List.Pairwise (fun a b => overlapB a b = false) custom)
    (he : List.Pairwise (fun a b => overlapB a b = false) ents)
    (hvc : ∀ s ∈ custom, s.start < s.stop)
    (hve : ∀ s ∈ ents, s.start < s.stop) :
    List.Pairwise (fun a b : Span => a.stop ≤ b.start) (combineSpans custom ls ents) := by
  simp only [combineSpans]
  set pred := fun e : Span =>
    !(custom.any (fun cs => spans_overlap e.start e.stop cs.start cs.stop)) &&
    !(ls.any (fun p => spans_overlap e.start e.stop p.1 p.2)) with hpred
  have hfe : List.Pairwise (fun a b => overlapB a b = false) (ents.filter pred) :=
    List.Pairwise.sublist (List.filter_sublist ents) he
  have hcross : ∀ a ∈ custom, ∀ b ∈ ents.filter pred, overlapB a b = false := by
    intro a ha b hb
    rw [List.mem_filter] at hb
    have hany : custom.any (fun cs => spans_overlap b.start b.stop cs.start cs.stop) = false := by
      have := hb.2
      rw [hpred] at this
      simp only [Bool.and_eq_true, Bool.not_eq_eq_eq_not, Bool.not_true,
        List.any_eq_false] at this
      simp only [List.any_eq_false]
      intro cs hcs
      simpa using this.1 cs hcs
    rw [List.any_eq_false] at hany
    have hba : overlapB b a = false := by simpa using hany a ha
    rw [overlapB_symm]
    exact hba
  have hall : List.Pairwise (fun a b => overlapB a b = false) (custom ++ ents.filter pred) := by
    rw [List.pairwise_append]
    exact ⟨hc, hfe, hcross⟩
  have hperm := sortByStart_perm (custom ++ ents.filter pred)
  have hsorted := sortByStart_sorted (custom ++ ents.filter pred)
  have hdisj : List.Pairwise (fun a b => overlapB a b = false)
      (sortByStart (custom ++ ents.filter pred)) := by
    refine hall.perm hperm.symm ?_
    intro x y hxy
    rw [overlapB_symm]
    exact hxy
  have hvalid : ∀ s ∈ sortByStart (custom ++ ents.filter pred), s.start < s.stop := by
    intro s hs
    have hs2 := hperm.mem_iff.mp hs
    rw [List.mem_append] at hs2
    rcases hs2 with hs2 | hs2
    · exact hvc s hs2
    · exact hve s ((List.filter_sublist ents).mem hs2)
  have := hsorted.and hdisj
  refine this.imp_of_mem ?_
  intro a b ha hb hab
  obtain ⟨hle, hov⟩ := hab
  rcases (overlapB_eq_false_iff a b).mp hov with h1 | h1
  · have := hvalid b hb
    omega
  · exact h1

/-- **C2 counterexample.**  The span set consumed by the substitution loop
is not always pairwise non-overlapping: two overlapping spaCy entities pass
the filter (which only compares NER spans against custom and label spans,
never against each other), so the combined list keeps both. -/
theorem claim_C2_counterexample :
    combineSpans [] [] [⟨0, 5, "A".toList⟩, ⟨3, 8, "B".toList⟩] =
      [⟨0, 5, "A".toList⟩, ⟨3, 8, "B".toList⟩] ∧
    overlapB ⟨0, 5, "A".toList⟩ ⟨3, 8, "B".toList⟩ = true ∧
    ¬ List.Pairwise (fun a b : Span => a.stop ≤ b.start)
      (combineSpans [] [] [⟨0, 5, "A".toList⟩, ⟨3, 8, "B".toList⟩]) := by
  refine ⟨by decide, by decide, by decide⟩

/-- **C2 (amended).**  The combined span list that the substitution loop
consumes is pairwise non-overlapping under half-open semantics
(`stop_i ≤ start_j` for `i` before `j`) and strictly increasing by start,
provided each detector family's spans are pairwise non-overlapping and all
spans are non-degenerate; the code itself removes only the overlaps of NER
spans with custom and label spans and sorts by start. -/
theorem claim_C2_disjointness
    (custom : List Span) (ls : List (Nat × Nat)) (ents : List Span)
    (hc : List.Pairwise (fun a b => overlapB a b = false) custom)
    (he : List.Pairwise (fun a b => overlapB a b = false) ents)
    (hvc : ∀ s ∈ custom, s.start < s.stop)
    (hve : ∀ s ∈ ents, s.start < s.stop) :
    List.Pairwise (fun a b : Span => a.stop ≤ b.start) (combineSpans custom ls ents) ∧
    List.Pairwise (fun a b : Span => a.start < b.start) (combineSpans custom ls ents) := by
  have hchain := combineSpans_disjoint_sorted custom ls ents hc he hvc hve
  refine ⟨hchain, ?_⟩
  have hvalid : ∀ s ∈ combineSpans custom ls ents, s.start < s.stop := by
    intro s hs
    simp only [combineSpans] at hs
    have hs2 := (sortByStart_perm _).mem_iff.mp hs
    rw [List.mem_append] at hs2
    rcases hs2 with hs2 | hs2
    · exact hvc s hs2
    · exact hve s ((List.filter_sublist ents).mem hs2)
  refine hchain.imp_of_mem ?_
  intro a b ha hb hab
  have := hvalid a ha
  omega

/-- **C2 witness.**  A concrete instance of the amended disjointness
invariant: one custom SSN span and two disjoint NER spans. -/
theorem claim_C2_disjointness_witness :
    List.Pairwise (fun a b => overlapB a b = false) [(⟨0, 3, "SSN".toList⟩ : Span)] ∧
    List.Pairwise (fun a b => overlapB a b = false)
      [(⟨5, 8, "PERSON".toList⟩ : Span), ⟨10, 12, "ORG".toList⟩] ∧
    List.Pairwise (fun a b : Span => a.stop ≤ b.start)
      (combineSpans [⟨0, 3, "SSN".toList⟩] []
        [⟨5, 8, "PERSON".toList⟩, ⟨10, 12, "ORG".toList⟩]) := by
  refine ⟨by decide, by decide, ?_⟩
  exact (claim_C2_disjointness [⟨0, 3, "SSN".toList⟩] []
    [⟨5, 8, "PERSON".toList⟩, ⟨10, 12, "ORG".toList⟩]
    (by decide) (by decide) (by decide) (by decide)).1

/-- **C4 counterexample.**  The code has no longest-match tie-break: with
the overlapping candidate spans `[0,10,"A")` and `[0,5,"B")` at the same
start, supplied as NER spans, the combined list keeps both, in input order
(the sort is by start only and stable); and when the shorter `[0,5,"B")` is
a custom span, it is the longer `[0,10,"A")` that is dropped. -/
theorem claim_C4_counterexample :
    combineSpans [] [] [⟨0, 10, "A".toList⟩, ⟨0, 5, "B".toList⟩] =
      [⟨0, 10, "A".toList⟩, ⟨0, 5, "B".toList⟩] ∧
    combineSpans [] [] [⟨0, 5, "B".toList⟩, ⟨0, 10, "A".toList⟩] =
      [⟨0, 5, "B".toList⟩, ⟨0, 10, "A".toList⟩] ∧
    combineSpans [⟨0, 5, "B".toList⟩] [] [⟨0, 10, "A".toList⟩] =
      [⟨0, 5, "B".toList⟩] := by
  refine ⟨by decide, by decide, by decide⟩

/-- **C4 (amended).**  The combination step sorts by start ascending only
(stably, with no tie-break by length), keeps every custom span, and keeps an
NER span exactly when it overlaps no custom span and no label span; in
particular, for the overlapping candidates `[0,10,"A")` (NER) and
`[0,5,"B")` (custom), the kept span is the shorter custom span `[0,5,"B")`,
regardless of length. -/
theorem claim_C4_sort_policy (custom : List Span) (ls : List (Nat × Nat)) (ents : List Span) :
    (∀ s : Span, s ∈ combineSpans custom ls ents ↔
      s ∈ custom ∨ (s ∈ ents ∧
        (∀ cs ∈ custom, spans_overlap s.start s.stop cs.start cs.stop = false) ∧
        (∀ p ∈ ls, spans_overlap s.start s.stop p.1 p.2 = false))) ∧
    List.Pairwise (fun a b : Span => a.start ≤ b.start) (combineSpans custom ls ents) ∧
    combineSpans [⟨0, 5, "B".toList⟩] [] [⟨0, 10, "A".toList⟩] = [⟨0, 5, "B".toList⟩] := by
  refine ⟨?_, sortByStart_sorted _, by decide⟩
  intro s
  simp only [combineSpans]
  rw [(sortByStart_perm _).mem_iff, List.mem_append, List.mem_filter]
  simp [List.any_eq_false]

/-- **C9.**  Purity and determinism: `anonymize_data` resets the instance's
counter state on entry, so its result does not depend on that state; in
particular two successive calls on the same `Anonymizer` instance return
identical output, and `deanonymize` is a pure function of its two
arguments. -/
theorem claim_C9_purity (st1 st2 : List (Text × Nat)) (file : Text)
    (custom : List Span) (ls : List (Nat × Nat)) (ents : List Span) :
    anonymize_data st1 file custom ls ents = anonymize_data st2 file custom ls ents ∧
    anonymize_data (anonymize_data st1 file custom ls ents).2 file custom ls ents =
      anonymize_data st1 file custom ls ents ∧
    (∀ (t : Text) (m : List (Text × Text)), deanonymize t m = deanonymize t m) :=
  ⟨rfl, rfl, fun _ _ => rfl⟩

/-- Number of spans whose mapped base label is `L`. -/
def countLabel (L : Text) (spans : List Span) : Nat :=
  (spans.filter (fun s => decide (label_mapping_get s.label = L))).length

theorem countLabel_cons (L : Text) (s : Span) (rest : List Span) :
    countLabel L (s :: rest) =
      (if label_mapping_get s.label = L then 1 else 0) + countLabel L rest := by
  simp only [countLabel, List.filter]
  by_cases h : label_mapping_get s.label = L
  · simp [h, Nat.add_comm]
  · simp [h]

/-- The forward reading of the reversed substitution loop: from cursor `c`,
each span contributes the verbatim gap before it and a placeholder whose
ordinal is one more than the number of *later* spans with the same base
label (because the loop processes spans right to left). -/
def tailInterleave (file : Text) : Nat → List Span → Text
  | c, [] => file.drop c
  | c, s :: rest =>
    slice file c s.start ++
    mkPlaceholder (label_mapping_get s.label)
      (countLabel (label_mapping_get s.label) rest + 1) ++
    tailInterleave file s.stop rest

theorem substLoop_nil (file : Text) : substLoop file [] = (file, []) := rfl

theorem substLoop_cons (file : Text) (s : Span) (rest : List Span) :
    substLoop file (s :: rest) =
      ((substLoop file rest).1.take s.start ++
        mkPlaceholder (label_mapping_get s.label)
          ((lookupA (label_mapping_get s.label) (substLoop file rest).2).getD 0 + 1) ++
        (substLoop file rest).1.drop s.stop,
       setA (label_mapping_get s.label)
         ((lookupA (label_mapping_get s.label) (substLoop file rest).2).getD 0 + 1)
         (substLoop file rest).2) := by
  simp only [substLoop, List.reverse_cons, List.foldl_concat]

/-- The final counter of every label equals the number of spans carrying it. -/
theorem substLoop_counters (file : Text) :
    ∀ (spans : List Span) (L : Text),
    (lookupA L (substLoop file spans).2).getD 0 = countLabel L spans := by
  intro spans
  induction spans with
  | nil =>
    intro L
    simp [substLoop, lookupA, countLabel, List.find?]
  | cons s rest ih =>
    intro L
    rw [substLoop_cons, countLabel_cons]
    by_cases h : label_mapping_get s.label = L
    · subst h
      rw [lookupA_setA_same, Option.getD_some, ih]
      simp [Nat.add_comm]
    · rw [if_neg h]
      have hne2 : L ≠ label_mapping_get s.label := fun he => h he.symm
      have hlo := lookupA_setA_other hne2
        ((lookupA (label_mapping_get s.label) (substLoop file rest).2).getD 0 + 1)
        (substLoop file rest).2
      rw [hlo, ih]
      omega

/-- Reverse splicing reads forward: for chained, in-bounds spans the
substitution loop produces the verbatim prefix up to the cursor followed by
the forward interleaving of gaps and placeholders. -/
theorem substLoop_text (file : Text) :
    ∀ (spans : List Span) (c : Nat),
    (∀ s ∈ spans, c ≤ s.start) →
    (∀ s ∈ spans, s.start < s.stop ∧ s.stop ≤ file.length) →
    List.Pairwise (fun a b : Span => a.stop ≤ b.start) spans →
    (substLoop file spans).1 = file.take c ++ tailInterleave file c spans := by
  intro spans
  induction spans with
  | nil =>
    intro c _ _ _
    simp [substLoop, tailInterleave]
  | cons s rest ih =>
    intro c hstart hvalid hpair
    rw [List.pairwise_cons] at hpair
    have hvs := hvalid s (by simp)
    have htext := ih s.stop hpair.1 (fun r hr => hvalid r (by simp [hr])) hpair.2
    rw [substLoop_cons, substLoop_counters, htext]
    simp only [tailInterleave]
    have hlen : (file.take s.stop).length = s.stop := by
      rw [List.length_take]
      omega
    have htake : (file.take s.stop ++ tailInterleave file s.stop rest).take s.start =
        file.take s.start := by
      rw [List.take_append_eq_append_take, List.take_take]
      have h0 : s.start - (file.take s.stop).length = 0 := by omega
      have h1 : min s.start s.stop = s.start := by omega
      rw [h0, h1, List.take_zero, List.append_nil]
    have hdrop : (file.take s.stop ++ tailInterleave file s.stop rest).drop s.stop =
        tailInterleave file s.stop rest := by
      have hdl := List.drop_left (file.take s.stop) (tailInterleave file s.stop rest)
      rw [hlen] at hdl
      exact hdl
    rw [htake, hdrop]
    have hjoin : file.take c ++ slice file c s.start = file.take s.start := by
      have hc := hstart s (by simp)
      rw [slice]
      have : s.start = c + (s.start - c) := by omega
      conv_rhs => rw [this]
      rw [List.take_add]
    rw [← List.append_assoc, ← List.append_assoc, hjoin]

/-- **C5 counterexample.**  The substitution loop iterates in *reverse*
document order (src/anonymize.py line 129), so with two PERSON spans the
rightmost one receives ordinal 1 and the earliest receives 2 — not the
document order the claim states. -/
theorem claim_C5_counterexample :
    (anonymize_data [] "Ann met Bob".toList [] []
      [⟨0, 3, "PERSON".toList⟩, ⟨8, 11, "PERSON".toList⟩]).1 =
      "[PERSON2] met [PERSON1]".toList ∧
    "[PERSON2] met [PERSON1]".toList ≠ "[PERSON1] met [PERSON2]".toList := by
  refine ⟨by decide, by decide⟩

/-- **C5 (amended).**  For chained detector inputs the substitution is a
right-to-left pass: the output text interleaves the verbatim gaps with
placeholders whose ordinal is one plus the number of *later* spans of the
same base label — so the latest span of each label receives ordinal 1, the
earliest receives that label's total count, and the final counter of every
label is the number of its spans. -/
theorem claim_C5_substitution_order (st0 : List (Text × Nat)) (file : Text)
    (custom : List Span) (ls : List (Nat × Nat)) (ents : List Span)
    (hc : List.Pairwise (fun a b => overlapB a b = false) custom)
    (he : List.Pairwise (fun a b => overlapB a b = false) ents)
    (hvc : ∀ s ∈ custom, s.start < s.stop ∧ s.stop ≤ file.length)
    (hve : ∀ s ∈ ents, s.start < s.stop ∧ s.stop ≤ file.length) :
    (anonymize_data st0 file custom ls ents).1 =
      tailInterleave file 0 (combineSpans custom ls ents) ∧
    ∀ L, (lookupA L (anonymize_data st0 file custom ls ents).2).getD 0 =
      countLabel L (combineSpans custom ls ents) := by
  have hmem : ∀ s ∈ combineSpans custom ls ents, s.start < s.stop ∧ s.stop ≤ file.length := by
    intro s hs
    simp only [combineSpans] at hs
    have hs2 := (sortByStart_perm _).mem_iff.mp hs
    rw [List.mem_append] at hs2
    rcases hs2 with hs2 | hs2
    · exact hvc s hs2
    · exact hve s ((List.filter_sublist ents).mem hs2)
  have hchain := combineSpans_disjoint_sorted custom ls ents hc he
    (fun s hs => (hvc s hs).1) (fun s hs => (hve s hs).1)
  constructor
  · have := substLoop_text file (combineSpans custom ls ents) 0
      (fun s _ => Nat.zero_le _) hmem hchain
    simpa [anonymize_data] using this
  · intro L
    exact substLoop_counters file (combineSpans custom ls ents) L

/-- **C5 witness.**  The amended ordering fact at a concrete input: on
`"Ann met Bob"` with two PERSON entities, the output is
`"[PERSON2] met [PERSON1]"` and the PERSON counter ends at 2. -/
theorem claim_C5_substitution_order_witness :
    (anonymize_data [] "Ann met Bob".toList [] []
      [⟨0, 3, "PERSON".toList⟩, ⟨8, 11, "PERSON".toList⟩]).1 =
      "[PERSON2] met [PERSON1]".toList ∧
    (lookupA "PERSON".toList (anonymize_data [] "Ann met Bob".toList [] []
      [⟨0, 3, "PERSON".toList⟩, ⟨8, 11, "PERSON".toList⟩]).2).getD 0 = 2 := by
  have h := claim_C5_substitution_order [] "Ann met Bob".toList [] []
    [⟨0, 3, "PERSON".toList⟩, ⟨8, 11, "PERSON".toList⟩]
    (by decide) (by decide) (by decide) (by decide)
  refine ⟨h.1.trans (by decide), (h.2 "PERSON".toList).trans (by decide)⟩

/-!
## The spec-modelled core: resolver, allocator, substitution engine

`pii_processor.py`, `server.py` and `workflow_demo.py` import
`anonymize(text, use_llm) -> (anonymized_text, mapping, spans)` and a `Span`
class from the `anonymize` module, but no such function exists under
`src/` — only its callers do.  The definitions below are therefore modelled
from the spec (§3, §4.1-4.3, §6) rather than from source code.
-/

/-- Modelled from the spec: the session state (§3) of the missing
mapping-producing core — the original→placeholder `Mapping` and the
per-label `Counters`, scoped to one anonymization run. -/
structure Session where
  mapping : List (Text × Text)
  counters : List (Text × Nat)
deriving DecidableEq

/-- Modelled from the spec: `allocate(label, originalText, sessionState)` of
§4.2 (absent from src/).  If the original already has an entry, return the
existing placeholder; otherwise bump the per-label counter and mint
`"[" + normalize(label) + counter + "]"`.  The normalization is the
repository's `label_mapping` canonicalization. -/
def allocate (label orig : Text) (st : Session) : Text × Session :=
  match lookupA orig st.mapping with
  | some p => (p, st)
  | none =>
    let nl := label_mapping_get label
    let k := (lookupA nl st.counters).getD 0 + 1
    (mkPlaceholder nl k,
      ⟨st.mapping ++ [(orig, mkPlaceholder nl k)], setA nl k st.counters⟩)

/-- Resolver candidate order (§4.1 step 3): start ascending, ties broken by
longer span first. -/
def resLe (a b : Span) : Bool :=
  decide (a.start < b.start) ||
    (decide (a.start = b.start) && decide (b.stop - b.start ≤ a.stop - a.start))

/-- Stable insertion for the resolver order. -/
def insertRes (a : Span) : List Span → List Span
  | [] => [a]
  | b :: l => if resLe a b then a :: b :: l else b :: insertRes a l

/-- Stable sort for the resolver order. -/
def sortRes : List Span → List Span
  | [] => []
  | a :: l => insertRes a (sortRes l)

theorem insertRes_perm (a : Span) :
    ∀ l : List Span, List.Perm (insertRes a l) (a :: l) := by
  intro l
  induction l with
  | nil => rfl
  | cons b t ih =>
    simp only [insertRes]
    split
    · rfl
    · exact List.Perm.trans (ih.cons b) (List.Perm.swap a b t)

theorem sortRes_perm : ∀ l : List Span, List.Perm (sortRes l) l := by
  intro l
  induction l with
  | nil => rfl
  | cons a t ih =>
    exact List.Perm.trans (insertRes_perm a (sortRes t)) (ih.cons a)

/-- The greedy overlap-removing walk of §4.1 step 4. -/
def greedyKeep : List Span → List Span → List Span
  | acc, [] => acc
  | acc, s :: rest =>
    if acc.any (fun t => overlapB t s) then greedyKeep acc rest
    else greedyKeep (acc ++ [s]) rest

theorem greedyKeep_mem : ∀ (l acc : List Span) (x : Span),
    x ∈ greedyKeep acc l → x ∈ acc ∨ x ∈ l := by
  intro l
  induction l with
  | nil => intro acc x hx; exact Or.inl hx
  | cons s rest ih =>
    intro acc x hx
    simp only [greedyKeep] at hx
    split at hx
    · rcases ih acc x hx with h | h
      · exact Or.inl h
      · exact Or.inr (by simp [h])
    · rcases ih (acc ++ [s]) x hx with h | h
      · rw [List.mem_append] at h
        rcases h with h | h
        · exact Or.inl h
        · simp at h
          exact Or.inr (by simp [h])
      · exact Or.inr (by simp [h])

theorem greedyKeep_pairwise : ∀ (l acc : List Span),
    List.Pairwise (fun a b => overlapB a b = false) acc →
    List.Pairwise (fun a b => overlapB a b = false) (greedyKeep acc l) := by
  intro l
  induction l with
  | nil => intro acc h; exact h
  | cons s rest ih =>
    intro acc h
    simp only [greedyKeep]
    split
    · exact ih acc h
    · next hany =>
      refine ih (acc ++ [s]) ?_
      rw [List.pairwise_append]
      refine ⟨h, by simp, ?_⟩
      intro a ha b hb
      simp at hb
      subst hb
      simp only [Bool.not_eq_true, List.any_eq_false] at hany
      simpa using hany a ha

/-- Modelled from the spec: the Span Resolver `resolve(document, spanLists…)`
of §4.1 (absent from src/): drop invalid spans, sort (start ascending,
longer first on ties), greedily keep non-overlapping spans, and re-sort the
kept set by start. -/
def resolve (docLen : Nat) (cands : List Span) : List Span :=
  let valid := cands.filter (fun s => decide (s.start < s.stop) && decide (s.stop ≤ docLen))
  sortByStart (greedyKeep [] (sortRes valid))

theorem resolve_mem {docLen : Nat} {cands : List Span} {s : Span}
    (hs : s ∈ resolve docLen cands) :
    s ∈ cands ∧ s.start < s.stop ∧ s.stop ≤ docLen := by
  simp only [resolve] at hs
  have h1 := (sortByStart_perm _).mem_iff.mp hs
  rcases greedyKeep_mem _ _ _ h1 with h2 | h2
  · simp at h2
  · have h3 := (sortRes_perm _).mem_iff.mp h2
    rw [List.mem_filter] at h3
    refine ⟨h3.1, ?_⟩
    have := h3.2
    simp at this
    exact this

theorem resolve_chain (docLen : Nat) (cands : List Span) :
    List.Pairwise (fun a b : Span => a.stop ≤ b.start) (resolve docLen cands) := by
  simp only [resolve]
  have hpw := greedyKeep_pairwise (sortRes (cands.filter
    (fun s => decide (s.start < s.stop) && decide (s.stop ≤ docLen)))) [] (by simp)
  have hdisj : List.Pairwise (fun a b => overlapB a b = false)
      (sortByStart (greedyKeep [] (sortRes (cands.filter
        (fun s => decide (s.start < s.stop) && decide (s.stop ≤ docLen)))))) := by
    refine hpw.perm (sortByStart_perm _).symm ?_
    intro x y hxy
    rw [overlapB_symm]
    exact hxy
  have hsorted := sortByStart_sorted (greedyKeep [] (sortRes (cands.filter
    (fun s => decide (s.start < s.stop) && decide (s.stop ≤ docLen)))))
  have hvalid : ∀ s ∈ sortByStart (greedyKeep [] (sortRes (cands.filter
      (fun s => decide (s.start < s.stop) && decide (s.stop ≤ docLen))))), s.start < s.stop := by
    intro s hs
    have h1 := (sortByStart_perm _).mem_iff.mp hs
    rcases greedyKeep_mem _ _ _ h1 with h2 | h2
    · simp at h2
    · have h3 := (sortRes_perm _).mem_iff.mp h2
      rw [List.mem_filter] at h3
      have := h3.2
      simp at this
      exact this.1
  refine (hsorted.and hdisj).imp_of_mem ?_
  intro a b ha hb hab
  obtain ⟨hle, hov⟩ := hab
  rcases (overlapB_eq_false_iff a b).mp hov with h1 | h1
  · have := hvalid b hb
    omega
  · exact h1

/-- Modelled from the spec: the Substitution Engine of §4.3 combined with
the allocator (absent from src/): a left-to-right pass allocating a
placeholder for each resolved span; returns the per-span `(span,
placeholder)` pairs and the final session. -/
def applySpans (doc : Text) : Session → List Span → List (Span × Text) × Session
  | st, [] => ([], st)
  | st, s :: rest =>
    let a := allocate s.label (slice doc s.start s.stop) st
    let r := applySpans doc a.2 rest
    ((s, a.1) :: r.1, r.2)

/-- Modelled from the spec: rendering of §4.3 — copy the verbatim gap before
each span, append its placeholder, advance the cursor, and copy the tail
after the last span. -/
def renderItems (doc : Text) : Nat → List (Span × Text) → Text
  | c, [] => slice doc c doc.length
  | c, (s, p) :: rest => slice doc c s.start ++ p ++ renderItems doc s.stop rest

/-- Modelled from the spec: the public
`anonymize(document, detectors) -> (anonymizedText, mapping)` of §6 (absent
from src/): resolver, then allocator and substitution engine over an
initially empty session. -/
def anonymize (doc : Text) (cands : List Span) : Text × List (Text × Text) :=
  let r := applySpans doc ⟨[], []⟩ (resolve doc.length cands)
  (renderItems doc 0 r.1, r.2.mapping)

theorem lookupA_append {β : Type} (k : Text) (m₁ m₂ : List (Text × β)) :
    lookupA k (m₁ ++ m₂) = (lookupA k m₁).or (lookupA k m₂) := by
  simp only [lookupA, List.find?_append]
  cases List.find? (fun e => decide (e.1 = k)) m₁ <;> simp

theorem lookupA_isSome_iff {β : Type} (k : Text) (m : List (Text × β)) :
    lookupA k m ≠ none ↔ ∃ e ∈ m, e.1 = k := by
  simp only [lookupA]
  constructor
  · intro h
    cases hf : List.find? (fun e => decide (e.1 = k)) m with
    | none => rw [hf] at h; simp at h
    | some e =>
      have he := List.find?_some hf
      simp at he
      exact ⟨e, List.mem_of_find?_eq_some hf, he⟩
  · intro ⟨e, he, hk⟩
    cases hf : List.find? (fun e => decide (e.1 = k)) m with
    | none =>
      rw [List.find?_eq_none] at hf
      exact absurd (by simpa using hk) (hf e he)
    | some e2 => simp [hf]

theorem lookupA_single {β : Type} (k k2 : Text) (v : β) :
    lookupA k [(k2, v)] = if k2 = k then some v else none := by
  simp only [lookupA, List.find?]
  by_cases h : k2 = k
  · simp [h]
  · simp [h]

theorem allocate_found {label orig : Text} {st : Session} {p : Text}
    (h : lookupA orig st.mapping = some p) : allocate label orig st = (p, st) := by
  simp [allocate, h]

theorem allocate_mapping_shape (label orig : Text) (st : Session) :
    (allocate label orig st).2.mapping = st.mapping ∨
    (lookupA orig st.mapping = none ∧
      (allocate label orig st).2.mapping =
        st.mapping ++ [(orig, (allocate label orig st).1)]) := by
  simp only [allocate]
  cases h : lookupA orig st.mapping with
  | some p => simp
  | none => simp

theorem allocate_lookup_self (label orig : Text) (st : Session) :
    lookupA orig (allocate label orig st).2.mapping = some (allocate label orig st).1 := by
  simp only [allocate]
  cases h : lookupA orig st.mapping with
  | some p => simpa using h
  | none =>
    simp only
    rw [lookupA_append, h, Option.none_or, lookupA_single, if_pos rfl]

theorem applySpans_cons (doc : Text) (st : Session) (s : Span) (rest : List Span) :
    applySpans doc st (s :: rest) =
      (((s, (allocate s.label (slice doc s.start s.stop) st).1) ::
        (applySpans doc (allocate s.label (slice doc s.start s.stop) st).2 rest).1),
       (applySpans doc (allocate s.label (slice doc s.start s.stop) st).2 rest).2) := by
  simp [applySpans]

theorem applySpans_mapping_mono (doc : Text) :
    ∀ (rs : List Span) (st : Session),
    ∃ tail, (applySpans doc st rs).2.mapping = st.mapping ++ tail := by
  intro rs
  induction rs with
  | nil => intro st; exact ⟨[], by simp [applySpans]⟩
  | cons s rest ih =>
    intro st
    rw [applySpans_cons]
    obtain ⟨t2, ht2⟩ := ih (allocate s.label (slice doc s.start s.stop) st).2
    rcases allocate_mapping_shape s.label (slice doc s.start s.stop) st with h | h
    · exact ⟨t2, by rw [ht2, h]⟩
    · exact ⟨[(slice doc s.start s.stop, (allocate s.label (slice doc s.start s.stop) st).1)] ++ t2,
        by rw [ht2, h.2, List.append_assoc]⟩

theorem lookupA_of_append_some {β : Type} {k : Text} {m : List (Text × β)} {v : β}
    (h : lookupA k m = some v) (m₂ : List (Text × β)) : lookupA k (m ++ m₂) = some v := by
  rw [lookupA_append, h]
  rfl

theorem applySpans_item_lookup (doc : Text) :
    ∀ (rs : List Span) (st : Session) (it : Span × Text),
    it ∈ (applySpans doc st rs).1 →
    lookupA (slice doc it.1.start it.1.stop) (applySpans doc st rs).2.mapping = some it.2 := by
  intro rs
  induction rs with
  | nil => intro st it hit; simp [applySpans] at hit
  | cons s rest ih =>
    intro st it hit
    rw [applySpans_cons] at hit ⊢
    simp only [List.mem_cons] at hit
    rcases hit with hit | hit
    · subst hit
      simp only
      obtain ⟨tail, htail⟩ := applySpans_mapping_mono doc rest
        (allocate s.label (slice doc s.start s.stop) st).2
      rw [htail]
      exact lookupA_of_append_some (allocate_lookup_self s.label (slice doc s.start s.stop) st) tail
    · exact ih (allocate s.label (slice doc s.start s.stop) st).2 it hit

theorem allocate_keys_nodup {label orig : Text} {st : Session}
    (h : (st.mapping.map (fun e => e.1)).Nodup) :
    ((allocate label orig st).2.mapping.map (fun e => e.1)).Nodup := by
  rcases allocate_mapping_shape label orig st with hs | hs
  · rw [hs]; exact h
  · rw [hs.2, List.map_append, List.nodup_append]
    refine ⟨h, by simp, ?_⟩
    intro x hx
    simp only [List.map_cons, List.map_nil, List.mem_singleton]
    intro hxe
    subst hxe
    rw [List.mem_map] at hx
    obtain ⟨e, he, he2⟩ := hx
    have hn := (lookupA_isSome_iff x st.mapping).not.mp (by simp [hs.1])
    push_neg at hn
    exact hn e he he2

theorem applySpans_keys_nodup (doc : Text) :
    ∀ (rs : List Span) (st : Session),
    (st.mapping.map (fun e => e.1)).Nodup →
    ((applySpans doc st rs).2.mapping.map (fun e => e.1)).Nodup := by
  intro rs
  induction rs with
  | nil => intro st h; simpa [applySpans] using h
  | cons s rest ih =>
    intro st h
    rw [applySpans_cons]
    exact ih _ (allocate_keys_nodup h)

theorem applySpans_keys_iff (doc : Text) :
    ∀ (rs : List Span) (st : Session) (o : Text),
    lookupA o (applySpans doc st rs).2.mapping ≠ none ↔
      lookupA o st.mapping ≠ none ∨ ∃ s ∈ rs, slice doc s.start s.stop = o := by
  intro rs
  induction rs with
  | nil =>
    intro st o
    simp [applySpans]
  | cons s rest ih =>
    intro st o
    rw [applySpans_cons]
    simp only
    rw [ih (allocate s.label (slice doc s.start s.stop) st).2 o]
    constructor
    · intro h
      rcases h with h | h
      · rcases allocate_mapping_shape s.label (slice doc s.start s.stop) st with hs | hs
        · rw [hs] at h
          exact Or.inl h
        · rw [hs.2, lookupA_append] at h
          cases hm : lookupA o st.mapping with
          | some v => exact Or.inl (by simp [hm])
          | none =>
            rw [hm, Option.none_or, lookupA_single] at h
            by_cases ho : slice doc s.start s.stop = o
            · exact Or.inr ⟨s, by simp, ho⟩
            · rw [if_neg ho] at h
              exact absurd rfl h
      · obtain ⟨s2, hs2, ho⟩ := h
        exact Or.inr ⟨s2, by simp [hs2], ho⟩
    · intro h
      rcases h with h | h
      · left
        cases hm : lookupA o st.mapping with
        | none => exact absurd hm h
        | some v =>
          rcases allocate_mapping_shape s.label (slice doc s.start s.stop) st with hs | hs
          · simp [hs, hm]
          · rw [hs.2]
            rw [lookupA_of_append_some hm]
            simp
      · obtain ⟨s2, hs2, ho⟩ := h
        rw [List.mem_cons] at hs2
        rcases hs2 with hs2 | hs2
        · subst hs2
          left
          rw [ho] at *
          rw [allocate_lookup_self]
          simp
        · exact Or.inr ⟨s2, hs2, ho⟩

/-- **C3.**  Idempotent repeats, against the spec-modelled allocator (the
mapping-producing `anonymize` core is not under src/): `allocate` returns
the existing placeholder when the original is already mapped; the session
mapping holds at most one entry per original substring, an original is a key
exactly when some processed span extracts it, and any two spans whose
extracted substrings coincide receive the identical placeholder. -/
theorem claim_C3_idempotent_repeats :
    (∀ (label orig : Text) (st : Session) (p : Text),
      lookupA orig st.mapping = some p → allocate label orig st = (p, st)) ∧
    (∀ (doc : Text) (rs : List Span),
      ((applySpans doc ⟨[], []⟩ rs).2.mapping.map (fun e => e.1)).Nodup ∧
      (∀ o : Text,
        lookupA o (applySpans doc ⟨[], []⟩ rs).2.mapping ≠ none ↔
          ∃ s ∈ rs, slice doc s.start s.stop = o) ∧
      (∀ it1 ∈ (applySpans doc ⟨[], []⟩ rs).1, ∀ it2 ∈ (applySpans doc ⟨[], []⟩ rs).1,
        slice doc it1.1.start it1.1.stop = slice doc it2.1.start it2.1.stop →
        it1.2 = it2.2)) := by
  constructor
  · intro label orig st p h
    exact allocate_found h
  · intro doc rs
    refine ⟨applySpans_keys_nodup doc rs ⟨[], []⟩ (by simp), ?_, ?_⟩
    · intro o
      rw [applySpans_keys_iff doc rs ⟨[], []⟩ o]
      simp [lookupA, List.find?]
    · intro it1 h1 it2 h2 heq
      have l1 := applySpans_item_lookup doc rs ⟨[], []⟩ it1 h1
      have l2 := applySpans_item_lookup doc rs ⟨[], []⟩ it2 h2
      rw [heq] at l1
      rw [l1] at l2
      exact (Option.some.injEq _ _).mp l2

/-- **C3 witness.**  The idempotence facts at a concrete repeated input: in
`"Bob met Bob"` both PERSON spans extract `"Bob"` and receive the identical
placeholder, and the mapping keys are duplicate-free. -/
theorem claim_C3_idempotent_repeats_witness :
    ((applySpans "Bob met Bob".toList ⟨[], []⟩
      [⟨0, 3, "PERSON".toList⟩, ⟨8, 11, "PERSON".toList⟩]).2.mapping.map
        (fun e => e.1)).Nodup ∧
    ((applySpans "Bob met Bob".toList ⟨[], []⟩
      [⟨0, 3, "PERSON".toList⟩, ⟨8, 11, "PERSON".toList⟩]).1.map
        (fun it => it.2)) = ["[PERSON1]".toList, "[PERSON1]".toList] ∧
    (applySpans "Bob met Bob".toList ⟨[], []⟩
      [⟨0, 3, "PERSON".toList⟩, ⟨8, 11, "PERSON".toList⟩]).2.mapping =
      [("Bob".toList, "[PERSON1]".toList)] := by
  refine ⟨(claim_C3_idempotent_repeats.2 "Bob met Bob".toList
    [⟨0, 3, "PERSON".toList⟩, ⟨8, 11, "PERSON".toList⟩]).1, by decide, by decide⟩

/-!
## Occurrence analysis for the round trip

The anonymized text is an interleaving of verbatim document slices with
placeholder tokens.  The lemmas below show that every placeholder-pattern
match in such a text starts exactly at a placeholder slot (as long as the
document itself contains no placeholder-shaped substring), which pins down
both what `findall` returns and what `str.replace` rewrites.
-/

/-- No token-shaped substring occurs in `t`. -/
def TokFree (t : Text) : Prop := ∀ q, IsTok q → ¬ q <:+: t

theorem tokFree_mono {t u : Text} (h : TokFree t) (hu : u <:+: t) :
    TokFree u := fun q hq hqu => h q hq (hqu.trans hu)

theorem tokFree_slice {t : Text} (h : TokFree t) (a b : Nat) :
    TokFree (slice t a b) := tokFree_mono h (slice_within t a b)

/-- An interior or final character of a token is never `'['`. -/
theorem IsTok.lookup_ne_lbrack {q : Text} (hq : IsTok q) {i : Nat}
    (h0 : 0 < i) : q[i]? ≠ some '[' := by
  intro hcontra
  obtain ⟨j, hj⟩ : ∃ j, i = j + 1 := ⟨i - 1, by omega⟩
  subst hj
  obtain ⟨qr, hqe⟩ := hq.head_lbrack
  subst hqe
  rw [List.getElem?_cons_succ] at hcontra
  have hmem : '[' ∈ qr := List.getElem?_mem hcontra
  exact hq.tail_no_lbrack '[' (by simpa using hmem) rfl

/-- No token can begin strictly inside a verbatim chunk `g` that contains no
token-shaped substring, when `g` is followed either by nothing or by a
placeholder token. -/
theorem no_tok_prefix_in_raw {q : Text} (hq : IsTok q)
    {g tl : Text} (hg : TokFree g)
    (htl : tl = [] ∨ ∃ p w, IsTok p ∧ tl = p ++ w) :
    ∀ g1 g2, g = g1 ++ g2 → g2 ≠ [] → ¬ q <+: (g2 ++ tl) := by
  intro g1 g2 hsplit hne hpre
  obtain ⟨w2, hw2⟩ := hpre
  by_cases hlen : q.length ≤ g2.length
  · have hq_take : q = (g2 ++ tl).take q.length := by
      rw [← hw2, List.take_left]
    have h0 : q.length - g2.length = 0 := by omega
    rw [List.take_append_eq_append_take, h0, List.take_zero, List.append_nil] at hq_take
    have hqg2 : q <+: g2 := hq_take ▸ List.take_prefix _ _
    have hinf : q <:+: g := by
      have hsuf : g2 <:+ g := ⟨g1, hsplit.symm⟩
      exact hqg2.isInfix.trans hsuf.isInfix
    exact hg q hq hinf
  · push_neg at hlen
    rcases htl with htl | ⟨p, w, hp, htl⟩
    · subst htl
      rw [List.append_nil] at hw2
      have := congrArg List.length hw2
      simp at this
      omega
    · subst htl
      have hpos : 0 < g2.length := by
        cases g2 with
        | nil => exact absurd rfl hne
        | cons _ _ => simp
      have hval : (g2 ++ (p ++ w))[g2.length]? = some '[' := by
        rw [List.getElem?_append_right (le_refl _), Nat.sub_self]
        obtain ⟨pr, hpr⟩ := hp.head_lbrack
        rw [hpr]
        simp
      have hval2 : (q ++ w2)[g2.length]? = q[g2.length]? :=
        List.getElem?_append_left hlen
      rw [hw2] at hval2
      rw [hval] at hval2
      exact hq.lookup_ne_lbrack hpos hval2.symm

/-- No token other than `p` itself can begin at or inside a placeholder
token `p`. -/
theorem no_tok_prefix_in_tok {q p : Text} (hq : IsTok q) (hp : IsTok p)
    (hne : q ≠ p) (tl : Text) :
    ∀ p1 p2, p = p1 ++ p2 → p2 ≠ [] → ¬ q <+: (p2 ++ tl) := by
  intro p1 p2 hsplit hne2 hpre
  cases p1 with
  | nil =>
    simp at hsplit
    subst hsplit
    exact hne (tok_prefix_tok hq hp hpre)
  | cons a p1t =>
    obtain ⟨c, p2t, rfl⟩ : ∃ c p2t, p2 = c :: p2t := by
      cases p2 with
      | nil => exact absurd rfl hne2
      | cons c p2t => exact ⟨c, p2t, rfl⟩
    have hcmem : c ∈ p.drop 1 := by
      rw [hsplit]
      simp
    have hcne : c ≠ '[' := hp.tail_no_lbrack c hcmem
    obtain ⟨qr, hqe⟩ := hq.head_lbrack
    obtain ⟨w2, hw2⟩ := hpre
    rw [hqe] at hw2
    simp only [List.cons_append, List.cons.injEq] at hw2
    exact hcne hw2.1.symm

/-- `str.replace` copies a chunk verbatim when no occurrence of the pattern
starts inside it. -/
theorem replaceAll_skip {q o : Text} :
    ∀ (g tl : Text),
    (∀ g1 g2, g = g1 ++ g2 → g2 ≠ [] → ¬ q <+: (g2 ++ tl)) →
    replaceAll q o (g ++ tl) = g ++ replaceAll q o tl := by
  intro g
  induction g with
  | nil => intro tl _; rfl
  | cons c g2 ih =>
    intro tl h
    have hno : ¬ (q ≠ [] ∧ q <+: (c :: (g2 ++ tl))) := by
      rintro ⟨-, hpre⟩
      exact h [] (c :: g2) rfl (by simp) (by simpa using hpre)
    have harg : ∀ g1 g2x, g2 = g1 ++ g2x → g2x ≠ [] → ¬ q <+: (g2x ++ tl) := by
      intro g1 g2x hsplit hne
      exact h (c :: g1) g2x (by rw [hsplit, List.cons_append]) hne
    rw [List.cons_append, replaceAll_cons_neg o hno, ih tl harg]
    rfl

/-- `str.replace` leaves a token-free text unchanged. -/
theorem replaceAll_noop {q o t : Text} (hq : IsTok q) (ht : TokFree t) :
    replaceAll q o t = t := by
  have h := replaceAll_skip (q := q) (o := o) t []
    (by
      intro g1 g2 hsplit hne hpre
      rw [List.append_nil] at hpre
      have hin : q <:+: t := by
        obtain ⟨w, hw⟩ := hpre
        exact ⟨g1, w, by rw [hsplit, ← hw, List.append_assoc]⟩
      exact ht q hq hin)
  rw [List.append_nil, replaceAll_nil, List.append_nil] at h
  exact h

/-- `str.replace` fires exactly at a leading occurrence of the pattern. -/
theorem replaceAll_at_tok {q : Text} (o : Text) (hq : IsTok q) (tl : Text) :
    replaceAll q o (q ++ tl) = o ++ replaceAll q o tl := by
  obtain ⟨c, qr, hqe⟩ : ∃ c qr, q = c :: qr := by
    cases hx : q with
    | nil => exact absurd hx hq.ne_nil
    | cons c qr => exact ⟨c, qr, rfl⟩
  have hpre : q <+: (q ++ tl) := ⟨tl, rfl⟩
  conv_lhs => rw [hqe, List.cons_append]
  rw [replaceAll_cons_pos o (by simp [hqe]) (by rw [← List.cons_append, ← hqe]; exact hpre)]
  rw [← List.cons_append, ← hqe, List.drop_left]

/-- The scanner skips a chunk in which no token occurrence starts. -/
theorem findTokens_skip :
    ∀ (g tl : Text),
    (∀ g1 g2, g = g1 ++ g2 → g2 ≠ [] → ∀ q, IsTok q → ¬ q <+: (g2 ++ tl)) →
    findTokens (g ++ tl) = findTokens tl := by
  intro g
  induction g with
  | nil => intro tl _; rfl
  | cons c g2 ih =>
    intro tl h
    rw [List.cons_append, findTokens_cons]
    cases htt : tryTok (c :: (g2 ++ tl)) with
    | some pair =>
      obtain ⟨tok, rest⟩ := pair
      obtain ⟨htok, hdec, -⟩ := tryTok_sound htt
      exact absurd ⟨rest, hdec.symm⟩ (h [] (c :: g2) rfl (by simp) tok htok)
    | none =>
      rw [ih tl ?_]
      intro g1 g2x hsplit hne q hqt
      exact h (c :: g1) g2x (by rw [hsplit, List.cons_append]) hne q hqt

/-- The scanner finds nothing in a token-free text. -/
theorem findTokens_empty {t : Text} (ht : TokFree t) : findTokens t = [] := by
  have h := findTokens_skip t []
    (by
      intro g1 g2 hsplit hne q hqt hpre
      rw [List.append_nil] at hpre
      obtain ⟨w, hw⟩ := hpre
      exact ht q hqt ⟨g1, w, by rw [hsplit, ← hw, List.append_assoc]⟩)
  rw [List.append_nil] at h
  exact h

/-- The scanner emits exactly the leading token. -/
theorem findTokens_at_tok {p : Text} (hp : IsTok p) (tl : Text) :
    findTokens (p ++ tl) = p :: findTokens tl := by
  obtain ⟨c, pr, hpe⟩ : ∃ c pr, p = c :: pr := by
    cases hx : p with
    | nil => exact absurd hx hp.ne_nil
    | cons c pr => exact ⟨c, pr, rfl⟩
  conv_lhs => rw [hpe, List.cons_append, findTokens_cons, ← List.cons_append, ← hpe]
  rw [tryTok_complete hp tl]

/-- Well-formedness of an item list against the document and a cursor:
chained, in-bounds spans carrying placeholder tokens. -/
def ItemsOK (doc : Text) : Nat → List (Span × Text) → Prop
  | c, [] => c ≤ doc.length
  | c, (s, p) :: rest =>
    c ≤ s.start ∧ s.start < s.stop ∧ s.stop ≤ doc.length ∧ IsTok p ∧ ItemsOK doc s.stop rest

theorem ItemsOK.weaken {doc : Text} :
    ∀ {items : List (Span × Text)} {b c : Nat}, ItemsOK doc b items → c ≤ b →
    ItemsOK doc c items := by
  intro items
  cases items with
  | nil =>
    intro b c h hcb
    simp only [ItemsOK] at h ⊢
    omega
  | cons it rest =>
    intro b c h hcb
    obtain ⟨s, p⟩ := it
    simp only [ItemsOK] at h ⊢
    exact ⟨by omega, h.2⟩

theorem ItemsOK.filter {doc : Text} (pred : Span × Text → Bool) :
    ∀ {items : List (Span × Text)} {c : Nat}, ItemsOK doc c items →
    ItemsOK doc c (items.filter pred) := by
  intro items
  induction items with
  | nil => intro c h; simpa [List.filter] using h
  | cons it rest ih =>
    intro c h
    obtain ⟨s, p⟩ := it
    simp only [ItemsOK] at h
    obtain ⟨h1, h2, h3, h4, h5⟩ := h
    by_cases hp : pred (s, p)
    · rw [List.filter_cons_of_pos hp]
      exact ⟨h1, h2, h3, h4, ih h5⟩
    · rw [List.filter_cons_of_neg (by simpa using hp)]
      exact (ih h5).weaken (by omega)

/-- The scanner on a rendered item list returns exactly the placeholders, in
order. -/
theorem findTokens_render {doc : Text} (hdoc : TokFree doc) :
    ∀ (items : List (Span × Text)) (c : Nat), ItemsOK doc c items →
    findTokens (renderItems doc c items) = items.map (fun it => it.2) := by
  intro items
  induction items with
  | nil =>
    intro c h
    simp only [renderItems, List.map_nil]
    exact findTokens_empty (tokFree_slice hdoc c doc.length)
  | cons it rest ih =>
    intro c h
    obtain ⟨s, p⟩ := it
    simp only [ItemsOK] at h
    obtain ⟨h1, h2, h3, h4, h5⟩ := h
    simp only [renderItems, List.map_cons]
    rw [List.append_assoc]
    rw [findTokens_skip (slice doc c s.start) (p ++ renderItems doc s.stop rest) ?hskip]
    case hskip =>
      intro g1 g2 hsplit hne q hqt
      exact no_tok_prefix_in_raw hqt (tokFree_slice hdoc c s.start)
        (Or.inr ⟨p, renderItems doc s.stop rest, h4, rfl⟩) g1 g2 hsplit hne
    rw [findTokens_at_tok h4, ih s.stop h5]

/-- Merging a leading pair of document slices into a rendering. -/
theorem renderItems_absorb (doc : Text) {c a b : Nat}
    (hc : c ≤ a) (hab : a ≤ b) :
    ∀ (items : List (Span × Text)), ItemsOK doc b items →
    slice doc c a ++ slice doc a b ++ renderItems doc b items = renderItems doc c items := by
  intro items h
  cases items with
  | nil =>
    simp only [ItemsOK] at h
    simp only [renderItems]
    rw [slice_append doc hc hab, slice_append doc (le_trans hc hab) h]
  | cons it rest =>
    obtain ⟨s, p⟩ := it
    simp only [ItemsOK] at h
    simp only [renderItems]
    rw [slice_append doc hc hab, ← List.append_assoc, ← List.append_assoc,
      slice_append doc (le_trans hc hab) h.1]

/-- `str.replace` of one placeholder by its original on a rendered item list
replaces exactly the slots carrying that placeholder; the replaced slots
merge back into verbatim document content. -/
theorem replaceAll_render {doc : Text} (hdoc : TokFree doc) {q o : Text} (hq : IsTok q) :
    ∀ (items : List (Span × Text)) (c : Nat), ItemsOK doc c items →
    (∀ it ∈ items, it.2 = q → slice doc it.1.start it.1.stop = o) →
    replaceAll q o (renderItems doc c items) =
      renderItems doc c (items.filter (fun it => !decide (it.2 = q))) := by
  intro items
  induction items with
  | nil =>
    intro c h _
    simp only [renderItems, List.filter_nil]
    exact replaceAll_noop hq (tokFree_slice hdoc c doc.length)
  | cons it rest ih =>
    intro c h hcons
    obtain ⟨s, p⟩ := it
    simp only [ItemsOK] at h
    obtain ⟨h1, h2, h3, h4, h5⟩ := h
    simp only [renderItems]
    rw [List.append_assoc]
    rw [replaceAll_skip (slice doc c s.start) (p ++ renderItems doc s.stop rest) ?hskip]
    case hskip =>
      intro g1 g2 hsplit hne
      exact no_tok_prefix_in_raw hq (tokFree_slice hdoc c s.start)
        (Or.inr ⟨p, renderItems doc s.stop rest, h4, rfl⟩) g1 g2 hsplit hne
    by_cases hpq : p = q
    · subst hpq
      rw [replaceAll_at_tok o hq (renderItems doc s.stop rest)]
      rw [ih s.stop h5 (fun it hit => hcons it (by simp [hit]))]
      rw [List.filter_cons_of_neg (by simp)]
      have ho : slice doc s.start s.stop = o := hcons (s, p) (by simp) rfl
      rw [← ho]
      rw [← List.append_assoc]
      exact renderItems_absorb doc h1 (le_of_lt h2) _
        (ItemsOK.filter _ h5)
    · rw [replaceAll_skip p (renderItems doc s.stop rest) ?hskip2]
      case hskip2 =>
        intro p1 p2 hsplit hne
        exact no_tok_prefix_in_tok hq h4 (fun he => hpq he.symm) _ p1 p2 hsplit hne
      rw [ih s.stop h5 (fun it hit => hcons it (by simp [hit]))]
      rw [List.filter_cons_of_pos (by simpa using hpq)]
      simp only [renderItems]
      rw [List.append_assoc]

/-!
## Session well-formedness

For the round trip, the mapping built by the allocator must be injective in
both directions: keys are distinct originals, values are distinct
placeholder tokens (distinctness comes from the per-label counters).
-/

/-- A usable normalized label: nonempty, upper-case letters only (so that
the minted placeholder matches the reversal pattern `\[[A-Z]+\d+\]`). -/
def UpLabel (L : Text) : Prop := L ≠ [] ∧ ∀ c ∈ L, isUpperC c = true

theorem mkPlaceholder_isTok {L : Text} (h : UpLabel L) (k : Nat) :
    IsTok (mkPlaceholder L k) :=
  ⟨L, natDigits k, rfl, h.1, natDigits_ne_nil k, h.2, natDigits_all_digit k⟩

theorem mkPlaceholder_inj {L1 L2 : Text} {k1 k2 : Nat}
    (h1 : ∀ c ∈ L1, isUpperC c = true) (h2 : ∀ c ∈ L2, isUpperC c = true)
    (he : mkPlaceholder L1 k1 = mkPlaceholder L2 k2) : L1 = L2 ∧ k1 = k2 := by
  simp only [mkPlaceholder, List.cons.injEq, true_and] at he
  have he2 : L1 ++ natDigits k1 ++ ']' :: [] = L2 ++ natDigits k2 ++ ']' :: [] := by
    simpa using he
  obtain ⟨hL, hd, -⟩ := classSeq_eq L1 L2 h1 (natDigits_all_digit k1) h2
    (natDigits_all_digit k2) (natDigits_ne_nil k1) (natDigits_ne_nil k2) he2
  exact ⟨hL, natDigits_injective hd⟩

/-- Invariant of the allocator session: distinct keys, distinct placeholder
values, and every stored placeholder is a minted token whose counter is
bounded by the current per-label counter. -/
def SessionInv (st : Session) : Prop :=
  (st.mapping.map (fun e => e.1)).Nodup ∧
  (st.mapping.map (fun e => e.2)).Nodup ∧
  (∀ e ∈ st.mapping, ∃ L k, UpLabel L ∧ e.2 = mkPlaceholder L k ∧
    1 ≤ k ∧ k ≤ (lookupA L st.counters).getD 0)

theorem sessionInv_empty : SessionInv ⟨[], []⟩ := by
  refine ⟨by simp, by simp, by simp⟩

theorem allocate_inv {label orig : Text} {st : Session} (hst : SessionInv st)
    (hl : UpLabel (label_mapping_get label)) :
    SessionInv (allocate label orig st).2 := by
  cases h : lookupA orig st.mapping with
  | some p =>
    rw [allocate_found h]
    exact hst
  | none =>
    obtain ⟨hkeys, hvals, hent⟩ := hst
    simp only [allocate, h]
    constructor
    · have hkn := @allocate_keys_nodup label orig st hkeys
      simp only [allocate, h] at hkn
      exact hkn
    constructor
    · rw [List.map_append, List.nodup_append]
      refine ⟨hvals, by simp, ?_⟩
      intro v hv
      simp only [List.map_cons, List.map_nil, List.mem_singleton]
      intro hve
      subst hve
      rw [List.mem_map] at hv
      obtain ⟨e, he, he2⟩ := hv
      obtain ⟨L, k, hLu, hshape, hk1, hk2⟩ := hent e he
      rw [hshape] at he2
      obtain ⟨hLeq, hkeq⟩ := mkPlaceholder_inj hLu.2 hl.2 he2
      subst hLeq
      omega
    · intro e he
      rw [List.mem_append] at he
      rcases he with he | he
      · obtain ⟨L, k, hLu, hshape, hk1, hk2⟩ := hent e he
        refine ⟨L, k, hLu, hshape, hk1, ?_⟩
        by_cases hLn : L = label_mapping_get label
        · subst hLn
          rw [lookupA_setA_same]
          simp only [Option.getD_some]
          omega
        · rw [lookupA_setA_other hLn]
          exact hk2
      · simp only [List.mem_singleton] at he
        subst he
        refine ⟨label_mapping_get label,
          (lookupA (label_mapping_get label) st.counters).getD 0 + 1, hl, rfl, by omega, ?_⟩
        rw [lookupA_setA_same]
        simp

theorem applySpans_inv (doc : Text) :
    ∀ (rs : List Span) (st : Session), SessionInv st →
    (∀ s ∈ rs, UpLabel (label_mapping_get s.label)) →
    SessionInv (applySpans doc st rs).2 := by
  intro rs
  induction rs with
  | nil => intro st h _; simpa [applySpans] using h
  | cons s rest ih =>
    intro st h hup
    rw [applySpans_cons]
    exact ih _ (allocate_inv h (hup s (by simp))) (fun s2 hs2 => hup s2 (by simp [hs2]))

theorem lookupA_mem {β : Type} {k : Text} {m : List (Text × β)} {v : β}
    (h : lookupA k m = some v) : (k, v) ∈ m := by
  simp only [lookupA] at h
  cases hf : List.find? (fun e => decide (e.1 = k)) m with
  | none => rw [hf] at h; simp at h
  | some e =>
    rw [hf] at h
    simp only [Option.map_some'] at h
    have he1 : e.1 = k := by simpa using List.find?_some hf
    have he2 : e.2 = v := by simpa using h
    have hmem := List.mem_of_find?_eq_some hf
    have : e = (k, v) := Prod.ext he1 he2
    rw [← this]
    exact hmem

theorem values_nodup_unique {m : List (Text × Text)}
    (h : (m.map (fun e => e.2)).Nodup) {a b p : Text}
    (ha : (a, p) ∈ m) (hb : (b, p) ∈ m) : a = b := by
  induction m with
  | nil => simp at ha
  | cons e rest ih =>
    rw [List.map_cons, List.nodup_cons] at h
    rw [List.mem_cons] at ha hb
    rcases ha with ha | ha <;> rcases hb with hb | hb
    · rw [← hb] at ha
      exact congrArg Prod.fst ha
    · exfalso
      apply h.1
      rw [List.mem_map]
      refine ⟨(b, p), hb, ?_⟩
      rw [← ha]
    · exfalso
      apply h.1
      rw [List.mem_map]
      refine ⟨(a, p), ha, ?_⟩
      rw [← hb]
    · exact ih h.2 ha hb

theorem revLookup_of_mem {m : List (Text × Text)} {o p : Text}
    (hmem : (o, p) ∈ m) (h : (m.map (fun e => e.2)).Nodup) :
    revLookup m p = some o := by
  simp only [revLookup]
  cases hf : List.find? (fun e => decide (e.2 = p)) m.reverse with
  | none =>
    rw [List.find?_eq_none] at hf
    exact absurd (by simp) (hf (o, p) (List.mem_reverse.mpr hmem))
  | some e =>
    simp only [Option.map_some']
    have he2 : e.2 = p := by simpa using List.find?_some hf
    have hemem : e ∈ m := List.mem_reverse.mp (List.mem_of_find?_eq_some hf)
    have : e = (e.1, p) := Prod.ext rfl he2
    rw [this] at hemem
    rw [values_nodup_unique h hemem hmem]

theorem applySpans_items_spans (doc : Text) :
    ∀ (rs : List Span) (st : Session),
    (applySpans doc st rs).1.map (fun it => it.1) = rs := by
  intro rs
  induction rs with
  | nil => intro st; simp [applySpans]
  | cons s rest ih =>
    intro st
    rw [applySpans_cons]
    simp only [List.map_cons]
    rw [ih]

theorem applySpans_item_entry (doc : Text) :
    ∀ (rs : List Span) (st : Session) (it : Span × Text),
    it ∈ (applySpans doc st rs).1 →
    (slice doc it.1.start it.1.stop, it.2) ∈ (applySpans doc st rs).2.mapping :=
  fun rs st it hit => lookupA_mem (applySpans_item_lookup doc rs st it hit)

theorem applySpans_item_tok (doc : Text) (rs : List Span) (st : Session)
    (hst : SessionInv st) (hup : ∀ s ∈ rs, UpLabel (label_mapping_get s.label)) :
    ∀ it ∈ (applySpans doc st rs).1, IsTok it.2 := by
  intro it hit
  have hent := applySpans_item_entry doc rs st it hit
  obtain ⟨-, -, hshape⟩ := applySpans_inv doc rs st hst hup
  obtain ⟨L, k, hLu, he, -, -⟩ := hshape _ hent
  simp only at he
  rw [he]
  exact mkPlaceholder_isTok hLu k

theorem itemsOK_of_chain (doc : Text) :
    ∀ (rs : List Span) (st : Session) (c : Nat),
    c ≤ doc.length →
    (∀ s ∈ rs, c ≤ s.start) →
    (∀ s ∈ rs, s.start < s.stop ∧ s.stop ≤ doc.length) →
    List.Pairwise (fun a b : Span => a.stop ≤ b.start) rs →
    (∀ it ∈ (applySpans doc st rs).1, IsTok it.2) →
    ItemsOK doc c (applySpans doc st rs).1 := by
  intro rs
  induction rs with
  | nil =>
    intro st c hc _ _ _ _
    simpa [applySpans, ItemsOK] using hc
  | cons s rest ih =>
    intro st c hc hstart hvalid hpair htok
    rw [applySpans_cons] at htok ⊢
    rw [List.pairwise_cons] at hpair
    have hvs := hvalid s (by simp)
    refine ⟨hstart s (by simp), hvs.1, hvs.2, ?_, ?_⟩
    · exact htok (s, (allocate s.label (slice doc s.start s.stop) st).1)
        (List.mem_cons_self _ _)
    · exact ih _ s.stop hvs.2 hpair.1 (fun r hr => hvalid r (by simp [hr])) hpair.2
        (fun it hit => htok it (by simp [hit]))

/-- The replacement loop of `deanonymize`: processing the token list over a
rendered item list removes exactly the slots whose placeholder occurs in the
list, provided every token resolves consistently with the slots. -/
theorem dean_fold {doc : Text} (hdoc : TokFree doc) (m : List (Text × Text)) :
    ∀ (toks : List Text) (cur : List (Span × Text)) (ws : List Text) (c : Nat),
    ItemsOK doc c cur →
    (∀ tok ∈ toks, IsTok tok) →
    (∀ tok ∈ toks, ∀ it ∈ cur, it.2 = tok →
      revLookup m tok = some (slice doc it.1.start it.1.stop)) →
    (∀ tok ∈ toks, revLookup m tok ≠ none) →
    (toks.foldl
      (fun acc placeholder =>
        match revLookup m placeholder with
        | some original => (replaceAll placeholder original acc.1, acc.2)
        | none => (acc.1, acc.2 ++ [placeholder]))
      (renderItems doc c cur, ws)).1 =
      renderItems doc c (cur.filter (fun it => !decide (it.2 ∈ toks))) := by
  intro toks
  induction toks with
  | nil =>
    intro cur ws c hok _ _ _
    simp only [List.foldl_nil]
    have : cur.filter (fun it => !decide (it.2 ∈ ([] : List Text))) = cur :=
      List.filter_eq_self.mpr (fun a _ => by simp)
    rw [this]
  | cons tok toks ih =>
    intro cur ws c hok htok hcons hfound
    cases hrev : revLookup m tok with
    | none => exact absurd hrev (hfound tok (by simp))
    | some o =>
      rw [List.foldl_cons, hrev]
      simp only
      have hconsist : ∀ it ∈ cur, it.2 = tok → slice doc it.1.start it.1.stop = o := by
        intro it hit hit2
        have h1 := hcons tok (by simp) it hit hit2
        rw [hrev] at h1
        exact ((Option.some.injEq _ _).mp h1).symm
      rw [replaceAll_render hdoc (htok tok (by simp)) cur c hok hconsist]
      rw [ih (cur.filter (fun it => !decide (it.2 = tok))) ws c
        (hok.filter _)
        (fun t ht => htok t (by simp [ht]))
        (fun t ht it hit hit2 =>
          hcons t (by simp [ht]) it ((List.filter_sublist cur).mem hit) hit2)
        (fun t ht => hfound t (by simp [ht]))]
      rw [List.filter_filter]
      refine congrArg _ (List.filter_congr ?_)
      intro it _
      by_cases h1 : it.2 = tok
      · simp [h1]
      · by_cases h2 : it.2 ∈ toks <;> simp [h1, h2]

/-- **C1 counterexample.**  The round trip as claimed fails even though
every emitted placeholder is present in the returned mapping: if the
original document already contains the placeholder-shaped text
`[PERSON1]`, the `str.replace` pass rewrites that verbatim occurrence too
(`"[PERSON1] Bob"` comes back as `"Bob Bob"`); and a detector label with a
non-letter character (the repository's own `CREDIT_CARD`) mints a
placeholder that the reversal pattern `\[[A-Z]+\d+\]` cannot match, so it is
never restored at all. -/
theorem claim_C1_counterexample :
    (anonymize "[PERSON1] Bob".toList [⟨10, 13, "PERSON".toList⟩]).1 =
      "[PERSON1] [PERSON1]".toList ∧
    (anonymize "[PERSON1] Bob".toList [⟨10, 13, "PERSON".toList⟩]).2 =
      [("Bob".toList, "[PERSON1]".toList)] ∧
    (∀ tok ∈ findTokens (anonymize "[PERSON1] Bob".toList [⟨10, 13, "PERSON".toList⟩]).1,
      revLookup (anonymize "[PERSON1] Bob".toList [⟨10, 13, "PERSON".toList⟩]).2 tok ≠ none) ∧
    (deanonymize (anonymize "[PERSON1] Bob".toList [⟨10, 13, "PERSON".toList⟩]).1
      (anonymize "[PERSON1] Bob".toList [⟨10, 13, "PERSON".toList⟩]).2).1 =
      "Bob Bob".toList ∧
    "Bob Bob".toList ≠ "[PERSON1] Bob".toList ∧
    (deanonymize (anonymize "N 1234".toList [⟨2, 6, "CREDIT_CARD".toList⟩]).1
      (anonymize "N 1234".toList [⟨2, 6, "CREDIT_CARD".toList⟩]).2).1 =
      "N [CREDIT_CARD1]".toList ∧
    "N [CREDIT_CARD1]".toList ≠ "N 1234".toList := by
  refine ⟨by decide, by decide, by decide, by decide, by decide, by decide, by decide⟩

/-- **C1 (amended).**  Round trip: for every document and every collection
of detector spans, deanonymizing the anonymized text with the returned
mapping restores the document exactly, provided (i) every candidate span's
normalized label is a nonempty string of upper-case letters, and (ii) the
document itself contains no placeholder-shaped substring (`findTokens doc`
is empty).  The claim's own hypothesis — every emitted placeholder present
in the mapping — holds by construction and both extra hypotheses are
forced by the counterexample. -/
theorem claim_C1_round_trip (doc : Text) (cands : List Span)
    (hup : ∀ s ∈ cands, UpLabel (label_mapping_get s.label))
    (hdoc : findTokens doc = []) :
    (deanonymize (anonymize doc cands).1 (anonymize doc cands).2).1 = doc := by
  have hnotok : TokFree doc := by
    intro q hq hinf
    obtain ⟨u, v, huv⟩ := hinf
    have hne : findTokens doc ≠ [] := by
      rw [← huv]
      clear huv hdoc
      induction u with
      | nil =>
        rw [List.nil_append, findTokens_at_tok hq]
        simp
      | cons cu ut ihu =>
        rw [List.cons_append, List.cons_append, findTokens_cons]
        cases htt : tryTok (cu :: (ut ++ q ++ v)) with
        | some pair => simp
        | none => exact ihu
    exact hne hdoc
  set rs := resolve doc.length cands with hrs
  have hchain : List.Pairwise (fun a b : Span => a.stop ≤ b.start) rs := resolve_chain _ _
  have hmemv : ∀ s ∈ rs, s.start < s.stop ∧ s.stop ≤ doc.length := by
    intro s hs
    exact (resolve_mem hs).2
  have hupr : ∀ s ∈ rs, UpLabel (label_mapping_get s.label) := by
    intro s hs
    exact hup s (resolve_mem hs).1
  set r := applySpans doc ⟨[], []⟩ rs with hr
  have hinv : SessionInv r.2 := applySpans_inv doc rs ⟨[], []⟩ sessionInv_empty hupr
  have htoks : ∀ it ∈ r.1, IsTok it.2 :=
    applySpans_item_tok doc rs ⟨[], []⟩ sessionInv_empty hupr
  have hok : ItemsOK doc 0 r.1 :=
    itemsOK_of_chain doc rs ⟨[], []⟩ 0 (Nat.zero_le _) (fun s _ => Nat.zero_le _)
      hmemv hchain htoks
  have hanon1 : (anonymize doc cands).1 = renderItems doc 0 r.1 := rfl
  have hanon2 : (anonymize doc cands).2 = r.2.mapping := rfl
  have hfind : findTokens (renderItems doc 0 r.1) = r.1.map (fun it => it.2) :=
    findTokens_render hnotok r.1 0 hok
  have hrevs : ∀ it ∈ r.1, revLookup r.2.mapping it.2 =
      some (slice doc it.1.start it.1.stop) := by
    intro it hit
    exact revLookup_of_mem (applySpans_item_entry doc rs ⟨[], []⟩ it hit) hinv.2.1
  have hfold := dean_fold hnotok r.2.mapping (r.1.map (fun it => it.2)) r.1 [] 0 hok
    (by
      intro tok htk
      rw [List.mem_map] at htk
      obtain ⟨it, hit, hite⟩ := htk
      rw [← hite]
      exact htoks it hit)
    (by
      intro tok htk it hit hit2
      have e1 := applySpans_item_entry doc rs ⟨[], []⟩ it hit
      rw [hit2] at e1
      exact revLookup_of_mem e1 hinv.2.1)
    (by
      intro tok htk
      rw [List.mem_map] at htk
      obtain ⟨it0, hit0, hit0e⟩ := htk
      rw [← hit0e, hrevs it0 hit0]
      simp)
  have hfilter : r.1.filter (fun it => !decide (it.2 ∈ r.1.map (fun it2 => it2.2))) = [] := by
    rw [List.filter_eq_nil_iff]
    intro it hit
    intro hcontra
    rw [Bool.not_eq_true', decide_eq_false_iff_not] at hcontra
    exact hcontra (List.mem_map.mpr ⟨it, hit, rfl⟩)
  simp only [deanonymize, hanon1, hanon2, hfind]
  rw [hfold, hfilter]
  simp only [renderItems]
  exact slice_zero_length doc

/-- **C1 witness.**  The amended round trip at a concrete input: a PERSON
span in a bracket-free document. -/
theorem claim_C1_round_trip_witness :
    (∀ s ∈ [(⟨11, 14, "PERSON".toList⟩ : Span)], UpLabel (label_mapping_get s.label)) ∧
    findTokens "My name is Bob".toList = [] ∧
    (anonymize "My name is Bob".toList [⟨11, 14, "PERSON".toList⟩]).1 =
      "My name is [PERSON1]".toList ∧
    (deanonymize (anonymize "My name is Bob".toList [⟨11, 14, "PERSON".toList⟩]).1
      (anonymize "My name is Bob".toList [⟨11, 14, "PERSON".toList⟩]).2).1 =
      "My name is Bob".toList := by
  refine ⟨?_, by decide, by decide, ?_⟩
  · intro s hs
    simp only [List.mem_singleton] at hs
    subst hs
    exact ⟨by decide, by decide⟩
  · exact claim_C1_round_trip "My name is Bob".toList [⟨11, 14, "PERSON".toList⟩]
      (by
        intro s hs
        simp only [List.mem_singleton] at hs
        subst hs
        exact ⟨by decide, by decide⟩)
      (by decide)

end PII
